import Mathlib

/-!
# Verification of the Minesweeper core (`MineSweeper.py`)

A shallow embedding of the `Minefield` class: board construction
(`__create_field`, `__locate_mines`, `__surrounds`), the recursive reveal
(`dig`), flag toggling (`flag`), and the win/loss queries (`game_won`,
`game_lost`).  Grids are modelled as total functions `Nat → Nat → _`;
the random shuffle of `__create_field` is modelled by quantifying over an
arbitrary permutation of the pre-shuffle flat array; numpy indexing with
possibly negative Python integers is modelled by `npIndex`; the unbounded
Python recursion of `dig` is modelled with explicit fuel, and we prove that
`height * width + 1` fuel reaches the fixpoint.
-/

namespace Mines

/-- The board (`self.field`): `-1` is a mine, a natural number is an
adjacency count.  Cell `(r, c)` is row `r`, column `c`. -/
abbrev Field := Nat → Nat → Int

/-- The visibility grid (`self.field_map`): `0` buried, `1` dug, `2` flagged. -/
abbrev FieldMap := Nat → Nat → Nat

/-- Point update of a visibility grid. -/
def setMap (m : FieldMap) (r c v : Nat) : FieldMap :=
  fun r' c' => if r' = r ∧ c' = c then v else m r' c'

/-- Point update of a board. -/
def setField (f : Field) (r c : Nat) (v : Int) : Field :=
  fun r' c' => if r' = r ∧ c' = c then v else f r' c'

@[simp] theorem setMap_same (m : FieldMap) (r c v : Nat) : setMap m r c v r c = v := by
  simp [setMap]

theorem setMap_other (m : FieldMap) (r c v r' c' : Nat) (h : ¬(r' = r ∧ c' = c)) :
    setMap m r c v r' c' = m r' c' := by
  simp [setMap, h]

/-! ## `__surrounds`

The source builds `sur_row = [r-1]*3 + [r]*2 + [r+1]*3` and
`sur_col = [c-1, c, c+1]*3` with index 4 (the centre) deleted, zips them,
and keeps the in-bounds pairs. -/

def sur_row_list (r : Int) : List Int :=
  List.replicate 3 (r - 1) ++ List.replicate 2 r ++ List.replicate 3 (r + 1)

def sur_col_list (c : Int) : List Int :=
  ((List.replicate 3 [c - 1, c, c + 1]).flatten).eraseIdx 4

/-- `Minefield.__surrounds`: the in-bounds neighbors of `(r, c)`. -/
def surrounds (hgt wid : Nat) (r c : Int) : List (Int × Int) :=
  ((sur_row_list r).zip (sur_col_list c)).filter
    (fun p => 0 ≤ p.1 && p.1 < (hgt : Int) && 0 ≤ p.2 && p.2 < (wid : Int))

/-- The neighbors of an in-bounds cell, as natural coordinates. -/
def surroundsN (hgt wid : Nat) (r c : Nat) : List (Nat × Nat) :=
  (surrounds hgt wid (r : Int) (c : Int)).map (fun p => (p.1.toNat, p.2.toNat))

theorem surrounds_zip_eq (r c : Int) :
    (sur_row_list r).zip (sur_col_list c) =
      [(r - 1, c - 1), (r - 1, c), (r - 1, c + 1), (r, c - 1), (r, c + 1),
       (r + 1, c - 1), (r + 1, c), (r + 1, c + 1)] := rfl

/-- Membership in `surroundsN`: exactly the in-bounds cells at Chebyshev
distance 1 from `(r, c)`. -/
theorem mem_surroundsN (hgt wid r c a b : Nat) :
    (a, b) ∈ surroundsN hgt wid r c ↔
      a < hgt ∧ b < wid ∧ ¬(a = r ∧ b = c) ∧
        r ≤ a + 1 ∧ a ≤ r + 1 ∧ c ≤ b + 1 ∧ b ≤ c + 1 := by
  simp only [surroundsN, surrounds, surrounds_zip_eq, List.mem_map, List.mem_filter]
  constructor
  · rintro ⟨⟨x, y⟩, ⟨hmem, hbnd⟩, hxy⟩
    simp only [List.mem_cons, List.not_mem_nil, or_false, Prod.mk.injEq] at hmem
    simp only [Bool.and_eq_true, decide_eq_true_eq] at hbnd
    obtain ⟨⟨⟨h1, h2⟩, h3⟩, h4⟩ := hbnd
    obtain ⟨ha, hb⟩ := Prod.mk.injEq .. ▸ hxy
    rcases hmem with ⟨hx, hy⟩ | ⟨hx, hy⟩ | ⟨hx, hy⟩ | ⟨hx, hy⟩ |
      ⟨hx, hy⟩ | ⟨hx, hy⟩ | ⟨hx, hy⟩ | ⟨hx, hy⟩ <;> subst hx <;> subst hy <;>
      subst ha <;> subst hb <;>
      refine ⟨by omega, by omega, by omega, by omega, by omega, by omega, by omega⟩
  · rintro ⟨ha, hb, hne, h1, h2, h3, h4⟩
    refine ⟨((a : Int), (b : Int)), ⟨?_, ?_⟩, by simp⟩
    · simp only [List.mem_cons, List.not_mem_nil, or_false, Prod.mk.injEq]
      omega
    · simp only [Bool.and_eq_true, decide_eq_true_eq]
      omega

theorem surroundsN_center_not_mem (hgt wid r c : Nat) :
    (r, c) ∉ surroundsN hgt wid r c := by
  rw [mem_surroundsN]; simp

theorem surroundsN_bounds {hgt wid r c : Nat} {p : Nat × Nat}
    (h : p ∈ surroundsN hgt wid r c) : p.1 < hgt ∧ p.2 < wid := by
  obtain ⟨a, b⟩ := p
  rw [mem_surroundsN] at h
  exact ⟨h.1, h.2.1⟩

/-- Adjacency is symmetric: for in-bounds cells, `(a,b)` is a neighbor of
`(r,c)` iff `(r,c)` is a neighbor of `(a,b)`. -/
theorem surroundsN_symm {hgt wid r c a b : Nat} (hr : r < hgt) (hc : c < wid)
    (ha : a < hgt) (hb : b < wid) :
    (a, b) ∈ surroundsN hgt wid r c ↔ (r, c) ∈ surroundsN hgt wid a b := by
  rw [mem_surroundsN, mem_surroundsN]
  omega

theorem surroundsN_nodup (hgt wid r c : Nat) : (surroundsN hgt wid r c).Nodup := by
  have hbase : ((sur_row_list (r : Int)).zip (sur_col_list (c : Int))).Nodup := by
    rw [surrounds_zip_eq]
    simp only [List.nodup_cons, List.mem_cons, List.not_mem_nil, or_false,
      Prod.mk.injEq, List.nodup_nil, and_true, not_or, not_and]
    repeat' apply And.intro
    all_goals first | exact not_false | (intros; omega)
  have hfil : (surrounds hgt wid (r : Int) (c : Int)).Nodup := hbase.filter _
  refine hfil.map_on ?_
  intro x hx y hy hxy
  simp only [surrounds, List.mem_filter, Bool.and_eq_true, decide_eq_true_eq] at hx hy
  obtain ⟨-, ⟨⟨⟨hx1, -⟩, hx2⟩, -⟩⟩ := hx
  obtain ⟨-, ⟨⟨⟨hy1, -⟩, hy2⟩, -⟩⟩ := hy
  obtain ⟨h1, h2⟩ := Prod.mk.injEq .. ▸ hxy
  have := Int.toNat_of_nonneg hx1
  have := Int.toNat_of_nonneg hy1
  have := Int.toNat_of_nonneg hx2
  have := Int.toNat_of_nonneg hy2
  obtain ⟨x1, x2⟩ := x
  obtain ⟨y1, y2⟩ := y
  simp only [Prod.mk.injEq]
  constructor <;> omega

/-! ## Cell enumeration and counting -/

/-- All in-bounds cells, in row-major order (the order `np.nonzero` reports). -/
def cellIdx (hgt wid : Nat) : List (Nat × Nat) :=
  List.range hgt ×ˢ List.range wid

theorem mem_cellIdx (hgt wid a b : Nat) :
    (a, b) ∈ cellIdx hgt wid ↔ a < hgt ∧ b < wid := by
  simp [cellIdx, List.mem_product]

theorem cellIdx_nodup (hgt wid : Nat) : (cellIdx hgt wid).Nodup :=
  (List.nodup_range hgt).product (List.nodup_range wid)

theorem cellIdx_length (hgt wid : Nat) : (cellIdx hgt wid).length = hgt * wid := by
  simp [cellIdx, List.length_product]

/-- Number of mines (`-1` entries) on the board grid. -/
def mineCount (hgt wid : Nat) (f : Field) : Nat :=
  (cellIdx hgt wid).countP (fun p => f p.1 p.2 == -1)

/-- Number of dug cells on the visibility grid
(`np.count_nonzero(self.field_map == 1)`). -/
def dugCount (hgt wid : Nat) (m : FieldMap) : Nat :=
  (cellIdx hgt wid).countP (fun p => m p.1 p.2 == 1)

/-- Number of buried cells on the visibility grid. -/
def buriedCount (hgt wid : Nat) (m : FieldMap) : Nat :=
  (cellIdx hgt wid).countP (fun p => m p.1 p.2 == 0)

/-! ## Board construction (`__create_field`, `__locate_mines`) -/

/-- The flat array before shuffling: `mine_amnt` entries of `-1` followed by
zeros (`self.field[:self.mine_amnt] = -1` on `np.zeros(height*width)`). -/
def base_field (m n : Nat) : List Int :=
  List.replicate m (-1) ++ List.replicate (n - m) 0

/-- Reshape a flat array into a row-major `hgt × wid` grid
(`np.reshape(self.field, (height, width))`). -/
def reshape (wid : Nat) (l : List Int) : Field :=
  fun r c => l.getD (r * wid + c) 0

/-- The mine locations: the nonzero cells of the freshly shuffled field,
in row-major order (`np.column_stack(np.nonzero(self.field))`). -/
def mine_locs (hgt wid : Nat) (f : Field) : List (Nat × Nat) :=
  (cellIdx hgt wid).filter (fun p => f p.1 p.2 != 0)

/-- One pass of `__locate_mines` for a single mine: bump every surrounding
non-mine cell by one. -/
def bumpRound (hgt wid : Nat) (g : Field) (mr mc : Nat) : Field :=
  (surroundsN hgt wid mr mc).foldl
    (fun acc p => if acc p.1 p.2 = -1 then acc else setField acc p.1 p.2 (acc p.1 p.2 + 1)) g

/-- `Minefield.__locate_mines`: add, for each mine, one to each surrounding
non-mine cell. -/
def locate_mines (hgt wid : Nat) (f : Field) : Field :=
  (mine_locs hgt wid f).foldl (fun acc m => bumpRound hgt wid acc m.1 m.2) f

/-! ## The `Minefield` state -/

structure Minefield where
  mine_amnt : Nat
  width : Nat
  height : Nat
  field : Field
  field_map : FieldMap
  game_lost : Bool
  game_won_cache : Option Bool

/-- `Minefield.__diff_mode`, a lookup in
`{'EASY' : (10,8,8), 'MED' : (40,15,15), 'HARD' : (40,30,16)}`. -/
def diff_mode (mode : String) : Option (Nat × Nat × Nat) :=
  if mode = "EASY" then some (10, 8, 8)
  else if mode = "MED" then some (40, 15, 15)
  else if mode = "HARD" then some (40, 30, 16)
  else none

/-- `Minefield.__init__`.  The random shuffle of `__create_field` is modelled
by the parameter `shuffled`, the flat mine array after `np.random.shuffle`;
theorems quantify over every `shuffled` that is a permutation of
`base_field`.  A difficulty token outside the dictionary raises (`none`). -/
def Minefield.mk_game (mode : String) (shuffled : List Int) : Option Minefield :=
  match diff_mode mode with
  | none => none
  | some (m, w, h) =>
    some { mine_amnt := m, width := w, height := h,
           field := locate_mines h w (reshape w shuffled),
           field_map := fun _ _ => 0,
           game_lost := false,
           game_won_cache := none }

/-! ## Digging and flagging -/

/-- Numpy 1-axis index resolution for a Python integer index: in-range
non-negative indices are themselves, in-range negative indices wrap from the
end, anything else raises `IndexError`. -/
def npIndex (n : Nat) (i : Int) : Option Nat :=
  if 0 ≤ i ∧ i < (n : Int) then some i.toNat
  else if -(n : Int) ≤ i ∧ i < 0 then some (i + n).toNat
  else none

/-- The mutable state `dig` works on: the visibility grid and the lost flag. -/
structure DigState where
  map : FieldMap
  lost : Bool

/-- The recursion of `Minefield.dig` on in-bounds coordinates, with explicit
fuel for the Python recursion: a non-buried cell is a no-op; otherwise the
cell is marked dug, a mine sets the lost flag, and a zero count recursively
digs every surrounding cell. -/
def digAux (f : Field) (hgt wid : Nat) : Nat → DigState → Nat → Nat → DigState
  | 0, s, _, _ => s
  | fuel + 1, s, r, c =>
    if s.map r c = 0 then
      if f r c = -1 then ⟨setMap s.map r c 1, true⟩
      else if f r c = 0 then
        (surroundsN hgt wid r c).foldl (fun acc p => digAux f hgt wid fuel acc p.1 p.2)
          ⟨setMap s.map r c 1, s.lost⟩
      else ⟨setMap s.map r c 1, s.lost⟩
    else s

/-- `Minefield.dig`.  The first statement executed is the read
`self.field_map[loc_row, loc_col]`, so an index outside numpy range raises
before any mutation; `height * width + 1` fuel is proven sufficient below. -/
def Minefield.dig (st : Minefield) (r c : Int) : Except String Minefield :=
  match npIndex st.height r, npIndex st.width c with
  | some rn, some cn =>
    let s := digAux st.field st.height st.width (st.height * st.width + 1)
      ⟨st.field_map, st.game_lost⟩ rn cn
    Except.ok { st with field_map := s.map, game_lost := s.lost }
  | _, _ => Except.error "IndexError"

/-- `Minefield.flag`: toggle buried ↔ flagged, no-op on a dug cell. -/
def Minefield.flag (st : Minefield) (r c : Int) : Except String Minefield :=
  match npIndex st.height r, npIndex st.width c with
  | some rn, some cn =>
    Except.ok
      (if st.field_map rn cn = 0 then { st with field_map := setMap st.field_map rn cn 2 }
       else if st.field_map rn cn = 2 then { st with field_map := setMap st.field_map rn cn 0 }
       else st)
  | _, _ => Except.error "IndexError"

/-! ## Win/loss queries -/

/-- The `game_won` property: returns its value and the state after the call
(the call stores the transient `_game_won` attribute). -/
def Minefield.game_won_run (st : Minefield) : Bool × Minefield :=
  let st1 := { st with game_won_cache := some false }
  if st1.game_lost = false then
    if (dugCount st1.height st1.width st1.field_map : Int) =
        (st1.height : Int) * (st1.width : Int) - (st1.mine_amnt : Int) then
      (true, { st1 with game_won_cache := some true })
    else (false, st1)
  else (false, st1)

/-- The boolean value `game_won` returns. -/
def Minefield.game_won (st : Minefield) : Bool :=
  (Minefield.game_won_run st).1

theorem surroundsN_length_le (hgt wid r c : Nat) :
    (surroundsN hgt wid r c).length ≤ 8 := by
  have h1 : (surroundsN hgt wid r c).length = (surrounds hgt wid r c).length := by
    simp [surroundsN]
  have h2 : (surrounds hgt wid (r : Int) (c : Int)).length ≤
      ((sur_row_list (r : Int)).zip (sur_col_list (c : Int))).length := by
    exact List.length_filter_le _ _
  rw [surrounds_zip_eq] at h2
  simpa [h1] using h2

/-! ## Generic counting helpers -/

theorem countP_lt_of_witness {α : Type} (l : List α) (p q : α → Bool)
    (hsub : ∀ a ∈ l, q a = true → p a = true) (x : α) (hx : x ∈ l)
    (hp : p x = true) (hq : ¬ q x = true) :
    l.countP q < l.countP p := by
  induction l with
  | nil => cases hx
  | cons a t ih =>
    rw [List.countP_cons, List.countP_cons]
    rcases List.mem_cons.mp hx with rfl | hxt
    · have ht : t.countP q ≤ t.countP p :=
        List.countP_mono_left (fun b hb => hsub b (List.mem_cons_of_mem _ hb))
      simp only [hp, if_true, if_neg hq]
      omega
    · have ha := hsub a (List.mem_cons_self a t)
      have ht : t.countP q < t.countP p :=
        ih (fun b hb => hsub b (List.mem_cons_of_mem _ hb)) hxt
      by_cases hqa : q a = true
      · simp only [hqa, if_true, ha hqa]
        omega
      · simp only [if_neg hqa]
        split <;> omega

/-- Counting members of a duplicate-free sublist inside a duplicate-free list
equals counting inside the sublist itself. -/
theorem countP_mem_eq_of_nodup {α : Type} [BEq α] [LawfulBEq α] [DecidableEq α]
    (l₁ l₂ : List α) (p : α → Bool)
    (h₁ : l₁.Nodup) (h₂ : l₂.Nodup) (hsub : ∀ a ∈ l₂, a ∈ l₁) :
    l₁.countP (fun a => l₂.contains a && p a) = l₂.countP p := by
  rw [List.countP_eq_length_filter, List.countP_eq_length_filter]
  have hn₁ : (l₁.filter (fun a => l₂.contains a && p a)).Nodup := h₁.filter _
  have hn₂ : (l₂.filter p).Nodup := h₂.filter _
  rw [← List.toFinset_card_of_nodup hn₁, ← List.toFinset_card_of_nodup hn₂]
  congr 1
  apply Finset.ext
  intro a
  simp only [List.mem_toFinset, List.mem_filter, Bool.and_eq_true, List.elem_iff]
  constructor
  · rintro ⟨-, hmem, hpa⟩
    exact ⟨hmem, hpa⟩
  · rintro ⟨hmem, hpa⟩
    exact ⟨hsub a hmem, hmem, hpa⟩

/-! ## Correctness of the adjacency pass -/

/-- Every cell value is at least `-1` (true before and during the pass). -/
def GoodField (f : Field) : Prop := ∀ r c, -1 ≤ f r c

/-- Every cell of a freshly shuffled field is a mine or zero. -/
def BaseValues (f : Field) : Prop := ∀ r c, f r c = -1 ∨ f r c = 0

/-- The body of the inner loop of `__locate_mines` over an arbitrary list of
locations. -/
def bumpFold (g : Field) (l : List (Nat × Nat)) : Field :=
  l.foldl (fun acc p => if acc p.1 p.2 = -1 then acc else setField acc p.1 p.2 (acc p.1 p.2 + 1)) g

theorem bumpRound_eq_bumpFold (hgt wid : Nat) (g : Field) (mr mc : Nat) :
    bumpRound hgt wid g mr mc = bumpFold g (surroundsN hgt wid mr mc) := rfl

theorem bumpFold_cons (g : Field) (p : Nat × Nat) (t : List (Nat × Nat)) :
    bumpFold g (p :: t) =
      bumpFold (if g p.1 p.2 = -1 then g else setField g p.1 p.2 (g p.1 p.2 + 1)) t := rfl

theorem bumpFold_step_eq (g : Field) (p : Nat × Nat) (x y : Nat)
    (h : ¬(x = p.1 ∧ y = p.2)) :
    (if g p.1 p.2 = -1 then g else setField g p.1 p.2 (g p.1 p.2 + 1)) x y = g x y := by
  split
  · rfl
  · simp [setField, h]

theorem bumpFold_good {g : Field} (hg : GoodField g) (l : List (Nat × Nat)) :
    GoodField (bumpFold g l) := by
  induction l generalizing g with
  | nil => exact hg
  | cons p t ih =>
    rw [bumpFold_cons]
    apply ih
    intro r c
    split
    · exact hg r c
    · simp only [setField]
      split
      · have := hg p.1 p.2
        omega
      · exact hg r c

theorem bumpFold_mine_iff {g : Field} (hg : GoodField g) (l : List (Nat × Nat)) (x y : Nat) :
    bumpFold g l x y = -1 ↔ g x y = -1 := by
  induction l generalizing g with
  | nil => exact Iff.rfl
  | cons p t ih =>
    rw [bumpFold_cons]
    by_cases hmine : g p.1 p.2 = -1
    · rw [if_pos hmine]
      exact ih hg
    · rw [if_neg hmine]
      have hgood : GoodField (setField g p.1 p.2 (g p.1 p.2 + 1)) := by
        intro r c
        simp only [setField]
        split
        · have := hg p.1 p.2
          omega
        · exact hg r c
      rw [ih hgood]
      simp only [setField]
      split
      · rename_i hxy
        obtain ⟨h1, h2⟩ := hxy
        subst h1; subst h2
        have := hg p.1 p.2
        constructor <;> intro h <;> omega
      · exact Iff.rfl

theorem bumpFold_val {g : Field} (hg : GoodField g) (l : List (Nat × Nat))
    (hl : l.Nodup) (x y : Nat) (hxy : g x y ≠ -1) :
    bumpFold g l x y = g x y + if (x, y) ∈ l then 1 else 0 := by
  induction l generalizing g with
  | nil => simp [bumpFold]
  | cons p t ih =>
    have hl' : t.Nodup := hl.of_cons
    rw [bumpFold_cons]
    by_cases heq : (x, y) = p
    · subst heq
      rw [if_neg (by simpa using hxy)]
      have hgood : GoodField (setField g x y (g x y + 1)) := by
        intro r c
        simp only [setField]
        split
        · have := hg x y; omega
        · exact hg r c
      have hnm : (x, y) ∉ t := (List.nodup_cons.mp hl).1
      rw [ih hgood hl' (by simp [setField]; have := hg x y; omega)]
      simp [setField, hnm]
    · have hstep : (if g p.1 p.2 = -1 then g else setField g p.1 p.2 (g p.1 p.2 + 1)) x y = g x y := by
        apply bumpFold_step_eq
        intro ⟨h1, h2⟩
        exact heq (by cases p; simp_all)
      have hgood : GoodField (if g p.1 p.2 = -1 then g else setField g p.1 p.2 (g p.1 p.2 + 1)) := by
        split
        · exact hg
        · intro r c
          simp only [setField]
          split
          · have := hg p.1 p.2; omega
          · exact hg r c
      rw [ih hgood hl' (by rw [hstep]; exact hxy), hstep]
      simp [List.mem_cons, heq]

/-- Value after folding `bumpRound` over a list of mine locations: mines stay
`-1`; a non-mine cell gains one for each listed mine it surrounds. -/
theorem locateFold_val (hgt wid : Nat) (ms : List (Nat × Nat)) :
    ∀ g : Field, GoodField g → ∀ x y : Nat,
      (ms.foldl (fun acc m => bumpRound hgt wid acc m.1 m.2) g) x y =
        if g x y = -1 then -1
        else g x y + (ms.countP (fun m => decide ((x, y) ∈ surroundsN hgt wid m.1 m.2)) : Int) := by
  induction ms with
  | nil =>
    intro g hg x y
    simp only [List.foldl_nil, List.countP_nil]
    split
    · omega
    · omega
  | cons m t ih =>
    intro g hg x y
    simp only [List.foldl_cons]
    have hgood : GoodField (bumpRound hgt wid g m.1 m.2) := by
      rw [bumpRound_eq_bumpFold]
      exact bumpFold_good hg _
    rw [ih _ hgood x y]
    by_cases hmine : g x y = -1
    · have h1 : bumpRound hgt wid g m.1 m.2 x y = -1 := by
        rw [bumpRound_eq_bumpFold]
        exact (bumpFold_mine_iff hg _ x y).mpr hmine
      rw [if_pos h1, if_pos hmine]
    · have h1 : bumpRound hgt wid g m.1 m.2 x y =
          g x y + if (x, y) ∈ surroundsN hgt wid m.1 m.2 then 1 else 0 := by
        rw [bumpRound_eq_bumpFold]
        exact bumpFold_val hg _ (surroundsN_nodup hgt wid m.1 m.2) x y hmine
      have h2 : bumpRound hgt wid g m.1 m.2 x y ≠ -1 := by
        rw [bumpRound_eq_bumpFold]
        intro hc
        exact hmine ((bumpFold_mine_iff hg _ x y).mp hc)
      rw [if_neg h2, if_neg hmine, h1, List.countP_cons]
      split <;> first
      | (simp_all; omega)
      | (simp_all; try omega)

/-- Mines are exactly preserved by `__locate_mines`. -/
theorem locate_mines_mine_iff {f : Field} (hf : GoodField f) (hgt wid x y : Nat) :
    locate_mines hgt wid f x y = -1 ↔ f x y = -1 := by
  rw [locate_mines, locateFold_val hgt wid _ f hf x y]
  split
  · simp_all
  · rename_i h
    constructor
    · intro hcontra
      have := hf x y
      omega
    · intro h'; exact absurd h' h

/-- Value of a non-mine cell after `__locate_mines`: the number of listed
mines it surrounds. -/
theorem locate_mines_val {f : Field} (hf : GoodField f) (hgt wid x y : Nat)
    (hxy : f x y ≠ -1) :
    locate_mines hgt wid f x y =
      f x y + ((mine_locs hgt wid f).countP
        (fun m => decide ((x, y) ∈ surroundsN hgt wid m.1 m.2)) : Int) := by
  rw [locate_mines, locateFold_val hgt wid _ f hf x y, if_neg hxy]

/-- The specification-side neighbor relation: a different cell at Chebyshev
distance at most one. -/
def neighborOf (r c : Nat) (p : Nat × Nat) : Bool :=
  decide (¬(p.1 = r ∧ p.2 = c) ∧ r ≤ p.1 + 1 ∧ p.1 ≤ r + 1 ∧ c ≤ p.2 + 1 ∧ p.2 ≤ c + 1)

/-- The specification-side adjacency count: the number of mine cells among the
in-bounds 8-neighbors of `(r, c)`, clipped at the grid boundary. -/
def specAdjCount (f : Field) (hgt wid r c : Nat) : Nat :=
  (cellIdx hgt wid).countP (fun p => neighborOf r c p && (f p.1 p.2 == -1))

theorem specAdjCount_eq_surrounds (f : Field) (hgt wid r c : Nat) :
    specAdjCount f hgt wid r c =
      (surroundsN hgt wid r c).countP (fun p => f p.1 p.2 == -1) := by
  rw [← countP_mem_eq_of_nodup (cellIdx hgt wid) (surroundsN hgt wid r c)
    (fun p => f p.1 p.2 == -1) (cellIdx_nodup hgt wid) (surroundsN_nodup hgt wid r c)
    (fun p hp => by
      obtain ⟨a, b⟩ := p
      rw [mem_cellIdx]
      exact surroundsN_bounds hp)]
  apply List.countP_congr
  intro p hp
  obtain ⟨a, b⟩ := p
  have hb := (mem_cellIdx hgt wid a b).mp hp
  simp only [specAdjCount, neighborOf, Bool.and_eq_true, decide_eq_true_eq,
    List.elem_iff, mem_surroundsN]
  constructor
  · rintro ⟨h1, h2⟩
    exact ⟨⟨hb.1, hb.2, h1.1, h1.2.1, h1.2.2.1, h1.2.2.2.1, h1.2.2.2.2⟩, h2⟩
  · rintro ⟨h1, h2⟩
    exact ⟨⟨h1.2.2.1, h1.2.2.2⟩, h2⟩

/-- Every entry of the pre-shuffle flat array is `-1` or `0`, hence so is
every entry of any permutation of it, hence every cell of the reshaped
grid. -/
theorem base_values_of_perm {l : List Int} {m n : Nat}
    (h : l.Perm (base_field m n)) (wid : Nat) :
    BaseValues (reshape wid l) := by
  intro r c
  simp only [reshape]
  rcases Nat.lt_or_ge (r * wid + c) l.length with hlt | hge
  · rw [List.getD_eq_getElem l 0 hlt]
    have hmem : l[r * wid + c] ∈ l := List.getElem_mem hlt
    have : l[r * wid + c] ∈ base_field m n := h.mem_iff.mp hmem
    simp only [base_field, List.mem_append, List.mem_replicate] at this
    tauto
  · rw [List.getD_eq_default l 0 hge]
    right; rfl

/-- Unfolding of a successful `mk_game`. -/
theorem mk_game_inv {mode : String} {l : List Int} {st : Minefield}
    (h : Minefield.mk_game mode l = some st) :
    st.field = locate_mines st.height st.width (reshape st.width l) ∧
      st.field_map = (fun _ _ => 0) ∧ st.game_lost = false ∧
      st.game_won_cache = none := by
  unfold Minefield.mk_game at h
  cases hd : diff_mode mode with
  | none => rw [hd] at h; cases h
  | some t =>
    obtain ⟨m, w, hgt⟩ := t
    rw [hd] at h
    have := Option.some.inj h
    subst this
    exact ⟨rfl, rfl, rfl, rfl⟩

/-- C1: after construction (mine placement followed by the adjacency pass),
every non-mine cell of the board stores exactly the number of mine cells
among its in-bounds 8 neighbors (orthogonal and diagonal, clipped at the grid
boundary), this value lies in `[0, 8]`, and mine cells remain marked as
mines (`-1`). -/
theorem construction_adjacency (mode : String) (l : List Int) (st : Minefield)
    (hmk : Minefield.mk_game mode l = some st)
    (hperm : l.Perm (base_field st.mine_amnt (st.height * st.width))) :
    ∀ r c : Nat, r < st.height → c < st.width →
      (st.field r c = -1 ↔ reshape st.width l r c = -1) ∧
      (st.field r c ≠ -1 →
        st.field r c = (specAdjCount st.field st.height st.width r c : Int) ∧
        0 ≤ st.field r c ∧ st.field r c ≤ 8) := by
  obtain ⟨hF, -, -, -⟩ := mk_game_inv hmk
  have hbase : BaseValues (reshape st.width l) := base_values_of_perm hperm _
  have hgood : GoodField (reshape st.width l) := by
    intro a b
    rcases hbase a b with h | h <;> omega
  intro r c hr hc
  have hmineiff : ∀ a b : Nat, st.field a b = -1 ↔ reshape st.width l a b = -1 := by
    intro a b
    rw [hF]
    exact locate_mines_mine_iff hgood st.height st.width a b
  refine ⟨hmineiff r c, ?_⟩
  intro hne
  have hne0 : reshape st.width l r c ≠ -1 := fun hcon => hne ((hmineiff r c).mpr hcon)
  have hzero : reshape st.width l r c = 0 := by
    rcases hbase r c with h | h
    · exact absurd h hne0
    · exact h
  have hval := locate_mines_val hgood st.height st.width r c hne0
  have hstep1 :
      (mine_locs st.height st.width (reshape st.width l)).countP
          (fun m => decide ((r, c) ∈ surroundsN st.height st.width m.1 m.2)) =
        (mine_locs st.height st.width (reshape st.width l)).countP
          (fun m => (surroundsN st.height st.width r c).contains m) := by
    apply List.countP_congr
    intro m hm
    obtain ⟨a, b⟩ := m
    have hmb : a < st.height ∧ b < st.width := by
      rw [mine_locs, List.mem_filter] at hm
      exact (mem_cellIdx st.height st.width a b).mp hm.1
    simp only [decide_eq_true_eq, List.elem_iff]
    exact surroundsN_symm hmb.1 hmb.2 hr hc
  have hstep2 :
      (mine_locs st.height st.width (reshape st.width l)).countP
          (fun m => (surroundsN st.height st.width r c).contains m) =
        (cellIdx st.height st.width).countP
          (fun m => (surroundsN st.height st.width r c).contains m &&
            (reshape st.width l m.1 m.2 != 0)) := by
    rw [mine_locs, List.countP_filter]
  have hstep3 :
      (cellIdx st.height st.width).countP
          (fun m => (surroundsN st.height st.width r c).contains m &&
            (reshape st.width l m.1 m.2 != 0)) =
        (cellIdx st.height st.width).countP
          (fun m => (surroundsN st.height st.width r c).contains m &&
            (reshape st.width l m.1 m.2 == -1)) := by
    apply List.countP_congr
    intro m hm
    simp only [Bool.and_eq_true, bne_iff_ne, ne_eq, beq_iff_eq]
    rcases hbase m.1 m.2 with h | h <;> rw [h] <;> simp
  have hstep4 :
      (cellIdx st.height st.width).countP
          (fun m => (surroundsN st.height st.width r c).contains m &&
            (reshape st.width l m.1 m.2 == -1)) =
        (surroundsN st.height st.width r c).countP
          (fun m => reshape st.width l m.1 m.2 == -1) :=
    countP_mem_eq_of_nodup _ _ _ (cellIdx_nodup _ _) (surroundsN_nodup _ _ _ _)
      (fun p hp => by
        obtain ⟨a, b⟩ := p
        rw [mem_cellIdx]
        exact surroundsN_bounds hp)
  have hstep5 :
      (surroundsN st.height st.width r c).countP
          (fun m => reshape st.width l m.1 m.2 == -1) =
        (surroundsN st.height st.width r c).countP
          (fun m => st.field m.1 m.2 == -1) := by
    apply List.countP_congr
    intro m hm
    simp only [beq_iff_eq]
    exact (hmineiff m.1 m.2).symm
  have hbound : (surroundsN st.height st.width r c).countP
      (fun m => st.field m.1 m.2 == -1) ≤ 8 :=
    le_trans (List.countP_le_length _) (surroundsN_length_le _ _ _ _)
  have hfv : st.field r c =
      ((mine_locs st.height st.width (reshape st.width l)).countP
        (fun m => decide ((r, c) ∈ surroundsN st.height st.width m.1 m.2)) : Int) := by
    conv_lhs => rw [hF]
    rw [hval, hzero]
    omega
  rw [hstep1, hstep2, hstep3, hstep4, hstep5] at hfv
  rw [specAdjCount_eq_surrounds]
  refine ⟨by omega, by omega, by omega⟩

/-- Witness for C1 on a concrete easy board (the unshuffled permutation):
cell `(2,1)` is not a mine and holds exactly its neighbor mine count. -/
theorem construction_adjacency_witness :
    ∃ st : Minefield, Minefield.mk_game "EASY" (base_field 10 64) = some st ∧
      st.field 2 1 ≠ -1 ∧
      st.field 2 1 = (specAdjCount st.field st.height st.width 2 1 : Int) ∧
      st.field 2 1 ≤ 8 := by
  refine ⟨_, rfl, by decide, ?_, ?_⟩
  · exact ((construction_adjacency "EASY" (base_field 10 64) _ rfl (List.Perm.refl _)
      2 1 (by decide) (by decide)).2 (by decide)).1
  · exact ((construction_adjacency "EASY" (base_field 10 64) _ rfl (List.Perm.refl _)
      2 1 (by decide) (by decide)).2 (by decide)).2.2

/-! ## Basic properties of the reveal recursion -/

theorem digAux_succ (f : Field) (hgt wid fuel : Nat) (s : DigState) (r c : Nat) :
    digAux f hgt wid (fuel + 1) s r c =
      if s.map r c = 0 then
        if f r c = -1 then ⟨setMap s.map r c 1, true⟩
        else if f r c = 0 then
          (surroundsN hgt wid r c).foldl (fun acc p => digAux f hgt wid fuel acc p.1 p.2)
            ⟨setMap s.map r c 1, s.lost⟩
        else ⟨setMap s.map r c 1, s.lost⟩
      else s := rfl

/-- Visibility grids only evolve by digging buried cells. -/
def MapMono (m m' : FieldMap) : Prop :=
  ∀ r c, m' r c = m r c ∨ (m r c = 0 ∧ m' r c = 1)

theorem mapMono_refl (m : FieldMap) : MapMono m m := fun _ _ => Or.inl rfl

theorem mapMono_trans {a b c : FieldMap} (h₁ : MapMono a b) (h₂ : MapMono b c) :
    MapMono a c := by
  intro r q
  rcases h₂ r q with h | h
  · rw [h]; exact h₁ r q
  · rcases h₁ r q with h' | h'
    · exact Or.inr ⟨h'.symm ▸ h.1, h.2⟩
    · exact Or.inr ⟨h'.1, h.2⟩

theorem mapMono_setMap (m : FieldMap) (r c : Nat) (h : m r c = 0) :
    MapMono m (setMap m r c 1) := by
  intro a b
  by_cases hab : a = r ∧ b = c
  · obtain ⟨rfl, rfl⟩ := hab
    exact Or.inr ⟨h, setMap_same m a b 1⟩
  · exact Or.inl (setMap_other m r c 1 a b hab)

/-- Fold a state invariant through the neighbor loop of `dig`. -/
theorem digList_preserve (f : Field) (hgt wid fuel : Nat) (P : DigState → Prop)
    (l : List (Nat × Nat))
    (hstep : ∀ s p, p ∈ l → P s → P (digAux f hgt wid fuel s p.1 p.2)) :
    ∀ s, P s → P (l.foldl (fun acc p => digAux f hgt wid fuel acc p.1 p.2) s) := by
  induction l with
  | nil => intro s hs; exact hs
  | cons p t ih =>
    intro s hs
    exact ih (fun s' q hq hs' => hstep s' q (List.mem_cons_of_mem _ hq) hs') _
      (hstep s p (List.mem_cons_self p t) hs)

/-- Every cell either keeps its visibility or moves from buried to dug. -/
theorem digAux_mono (f : Field) (hgt wid : Nat) :
    ∀ (fuel : Nat) (s : DigState) (r c : Nat),
      MapMono s.map (digAux f hgt wid fuel s r c).map := by
  intro fuel
  induction fuel with
  | zero => intro s r c; exact mapMono_refl _
  | succ n ih =>
    intro s r c
    rw [digAux_succ]
    by_cases h0 : s.map r c = 0
    · rw [if_pos h0]
      by_cases hm : f r c = -1
      · rw [if_pos hm]
        exact mapMono_setMap s.map r c h0
      · rw [if_neg hm]
        by_cases hz : f r c = 0
        · rw [if_pos hz]
          exact digList_preserve f hgt wid n (fun x => MapMono s.map x.map) _
            (fun x p _ hx => mapMono_trans hx (ih x p.1 p.2)) _
            (mapMono_setMap s.map r c h0)
        · rw [if_neg hz]
          exact mapMono_setMap s.map r c h0
    · rw [if_neg h0]
      exact mapMono_refl _

/-- The lost flag is never reset by digging. -/
theorem digAux_lost_mono (f : Field) (hgt wid : Nat) :
    ∀ (fuel : Nat) (s : DigState) (r c : Nat),
      s.lost = true → (digAux f hgt wid fuel s r c).lost = true := by
  intro fuel
  induction fuel with
  | zero => intro s r c h; exact h
  | succ n ih =>
    intro s r c h
    rw [digAux_succ]
    by_cases h0 : s.map r c = 0
    · rw [if_pos h0]
      by_cases hm : f r c = -1
      · rw [if_pos hm]
      · rw [if_neg hm]
        by_cases hz : f r c = 0
        · rw [if_pos hz]
          exact digList_preserve f hgt wid n (fun x => x.lost = true) _
            (fun x p _ hx => ih x p.1 p.2 hx) _ h
        · rw [if_neg hz]
          exact h
    · rw [if_neg h0]
      exact h

/-- Digging an in-bounds cell never touches out-of-bounds entries of the
(total-function) visibility grid. -/
theorem digAux_untouched_oob (f : Field) (hgt wid : Nat) :
    ∀ (fuel : Nat) (s : DigState) (r c : Nat), r < hgt → c < wid →
      ∀ x y : Nat, hgt ≤ x ∨ wid ≤ y →
        (digAux f hgt wid fuel s r c).map x y = s.map x y := by
  intro fuel
  induction fuel with
  | zero => intro s r c _ _ x y _; rfl
  | succ n ih =>
    intro s r c hr hc x y hxy
    rw [digAux_succ]
    have hne : ¬(x = r ∧ y = c) := by rintro ⟨rfl, rfl⟩; omega
    by_cases h0 : s.map r c = 0
    · rw [if_pos h0]
      by_cases hm : f r c = -1
      · rw [if_pos hm]
        exact setMap_other s.map r c 1 x y hne
      · rw [if_neg hm]
        by_cases hz : f r c = 0
        · rw [if_pos hz]
          have := digList_preserve f hgt wid n (fun st => st.map x y = setMap s.map r c 1 x y)
            (surroundsN hgt wid r c)
            (fun st p hp hst => by
              have hb := surroundsN_bounds hp
              show (digAux f hgt wid n st p.1 p.2).map x y = setMap s.map r c 1 x y
              rw [ih st p.1 p.2 hb.1 hb.2 x y hxy]
              exact hst)
            ⟨setMap s.map r c 1, s.lost⟩ rfl
          rw [this]
          exact setMap_other s.map r c 1 x y hne
        · rw [if_neg hz]
          exact setMap_other s.map r c 1 x y hne
    · rw [if_neg h0]

/-! ## Fuel is irrelevant beyond the number of buried cells -/

theorem buriedCount_le_of_mapMono {m m' : FieldMap} (h : MapMono m m') (hgt wid : Nat) :
    buriedCount hgt wid m' ≤ buriedCount hgt wid m := by
  apply List.countP_mono_left
  intro p _ hp
  simp only [beq_iff_eq] at hp ⊢
  rcases h p.1 p.2 with h' | h'
  · rw [← h']; exact hp
  · rw [h'.2] at hp; cases hp

theorem buriedCount_lt_setMap (hgt wid : Nat) (m : FieldMap) (r c : Nat)
    (hr : r < hgt) (hc : c < wid) (h : m r c = 0) :
    buriedCount hgt wid (setMap m r c 1) < buriedCount hgt wid m := by
  refine countP_lt_of_witness _ _ _ ?_ (r, c) ?_ ?_ ?_
  · intro p _ hp
    simp only [beq_iff_eq] at hp ⊢
    by_cases hab : p.1 = r ∧ p.2 = c
    · rw [setMap, if_pos hab] at hp; cases hp
    · rwa [setMap, if_neg hab] at hp
  · rw [mem_cellIdx]; exact ⟨hr, hc⟩
  · simpa using h
  · simp

theorem buriedCount_le_total (hgt wid : Nat) (m : FieldMap) :
    buriedCount hgt wid m ≤ hgt * wid := by
  rw [← cellIdx_length hgt wid]
  exact List.countP_le_length _

theorem buriedCount_pos (hgt wid : Nat) (m : FieldMap) (r c : Nat)
    (hr : r < hgt) (hc : c < wid) (h : m r c = 0) :
    0 < buriedCount hgt wid m := by
  rw [buriedCount, List.countP_pos_iff]
  exact ⟨(r, c), (mem_cellIdx hgt wid r c).mpr ⟨hr, hc⟩, by simpa using h⟩

/-- Any two fuels strictly larger than the number of buried cells produce the
same result: the recursion reaches its fixpoint within grid-size depth. -/
theorem digAux_fuel_congr (f : Field) (hgt wid : Nat) :
    ∀ (n f₁ f₂ : Nat) (s : DigState) (r c : Nat), r < hgt → c < wid →
      buriedCount hgt wid s.map ≤ n → n < f₁ → n < f₂ →
      digAux f hgt wid f₁ s r c = digAux f hgt wid f₂ s r c := by
  intro n
  induction n using Nat.strong_induction_on with
  | _ n ih =>
    intro f₁ f₂ s r c hr hc hb h1 h2
    obtain ⟨a, rfl⟩ : ∃ a, f₁ = a + 1 := ⟨f₁ - 1, by omega⟩
    obtain ⟨b, rfl⟩ : ∃ b, f₂ = b + 1 := ⟨f₂ - 1, by omega⟩
    rw [digAux_succ, digAux_succ]
    by_cases h0 : s.map r c = 0
    · rw [if_pos h0, if_pos h0]
      by_cases hm : f r c = -1
      · rw [if_pos hm, if_pos hm]
      · rw [if_neg hm, if_neg hm]
        by_cases hz : f r c = 0
        · rw [if_pos hz, if_pos hz]
          have hpos : 0 < buriedCount hgt wid s.map := buriedCount_pos hgt wid s.map r c hr hc h0
          have hlt : buriedCount hgt wid (setMap s.map r c 1) < buriedCount hgt wid s.map :=
            buriedCount_lt_setMap hgt wid s.map r c hr hc h0
          have key : ∀ (l : List (Nat × Nat)), (∀ p ∈ l, p.1 < hgt ∧ p.2 < wid) →
              ∀ x : DigState, buriedCount hgt wid x.map ≤ n - 1 →
                l.foldl (fun acc p => digAux f hgt wid a acc p.1 p.2) x =
                l.foldl (fun acc p => digAux f hgt wid b acc p.1 p.2) x := by
            intro l
            induction l with
            | nil => intro _ x _; rfl
            | cons p t iht =>
              intro hmem x hx
              simp only [List.foldl_cons]
              have hp := hmem p (List.mem_cons_self p t)
              have heq : digAux f hgt wid a x p.1 p.2 = digAux f hgt wid b x p.1 p.2 :=
                ih (n - 1) (by omega) a b x p.1 p.2 hp.1 hp.2 hx (by omega) (by omega)
              rw [heq]
              apply iht (fun q hq => hmem q (List.mem_cons_of_mem _ hq))
              exact le_trans
                (buriedCount_le_of_mapMono (digAux_mono f hgt wid b x p.1 p.2) hgt wid) hx
          exact key (surroundsN hgt wid r c)
            (fun p hp => surroundsN_bounds hp)
            ⟨setMap s.map r c 1, s.lost⟩
            (by show buriedCount hgt wid (setMap s.map r c 1) ≤ n - 1; omega)
        · rw [if_neg hz, if_neg hz]
    · rw [if_neg h0, if_neg h0]

/-! ## Unfolding the public `dig` and `flag` -/

theorem npIndex_of_lt (n i : Nat) (h : i < n) : npIndex n (i : Int) = some i := by
  rw [npIndex, if_pos ⟨Int.natCast_nonneg i, by exact_mod_cast h⟩]
  simp

theorem npIndex_none (n : Nat) (i : Int) (h : i < -(n : Int) ∨ (n : Int) ≤ i) :
    npIndex n i = none := by
  rw [npIndex, if_neg (by omega), if_neg (by omega)]

theorem npIndex_neg (n : Nat) (i : Int) (h1 : -(n : Int) ≤ i) (h2 : i < 0) :
    npIndex n i = some (i + n).toNat := by
  rw [npIndex, if_neg (by omega), if_pos ⟨h1, h2⟩]

theorem dig_coe (st : Minefield) (r c : Nat) (hr : r < st.height) (hc : c < st.width) :
    Minefield.dig st (r : Int) (c : Int) =
      Except.ok { st with
        field_map := (digAux st.field st.height st.width (st.height * st.width + 1)
          ⟨st.field_map, st.game_lost⟩ r c).map,
        game_lost := (digAux st.field st.height st.width (st.height * st.width + 1)
          ⟨st.field_map, st.game_lost⟩ r c).lost } := by
  simp only [Minefield.dig, npIndex_of_lt st.height r hr, npIndex_of_lt st.width c hc]

theorem dig_ok_inv {s : Minefield} {a b : Int} {s' : Minefield}
    (h : Minefield.dig s a b = Except.ok s') :
    ∃ rn cn, npIndex s.height a = some rn ∧ npIndex s.width b = some cn ∧
      s' = { s with
        field_map := (digAux s.field s.height s.width (s.height * s.width + 1)
          ⟨s.field_map, s.game_lost⟩ rn cn).map,
        game_lost := (digAux s.field s.height s.width (s.height * s.width + 1)
          ⟨s.field_map, s.game_lost⟩ rn cn).lost } := by
  unfold Minefield.dig at h
  rcases h1 : npIndex s.height a with _ | rn <;> rw [h1] at h <;>
    rcases h2 : npIndex s.width b with _ | cn <;> rw [h2] at h
  · cases h
  · cases h
  · cases h
  · exact ⟨rn, cn, rfl, rfl, (Except.ok.inj h).symm⟩

theorem flag_ok_inv {s : Minefield} {a b : Int} {s' : Minefield}
    (h : Minefield.flag s a b = Except.ok s') :
    ∃ rn cn, npIndex s.height a = some rn ∧ npIndex s.width b = some cn ∧
      s' = (if s.field_map rn cn = 0 then { s with field_map := setMap s.field_map rn cn 2 }
        else if s.field_map rn cn = 2 then { s with field_map := setMap s.field_map rn cn 0 }
        else s) := by
  unfold Minefield.flag at h
  rcases h1 : npIndex s.height a with _ | rn <;> rw [h1] at h <;>
    rcases h2 : npIndex s.width b with _ | cn <;> rw [h2] at h
  · cases h
  · cases h
  · cases h
  · exact ⟨rn, cn, rfl, rfl, (Except.ok.inj h).symm⟩

/-! ## Concrete boards used in witnesses and counterexamples -/

/-- A 1×4 board: zero cells at `(0,0)` and `(0,1)`, the numbered cell
`(0,2)`, a mine at `(0,3)`. -/
def sampleBoard : Minefield :=
  { mine_amnt := 1, width := 4, height := 1,
    field := fun r c => if r = 0 ∧ c = 3 then -1 else if r = 0 ∧ c = 2 then 1 else 0,
    field_map := fun _ _ => 0,
    game_lost := false, game_won_cache := none }

/-- A 2×2 board with a mine at `(0,0)` and all other counts `1`. -/
def sampleMineBoard : Minefield :=
  { mine_amnt := 1, width := 2, height := 2,
    field := fun r c => if r = 0 ∧ c = 0 then -1 else 1,
    field_map := fun _ _ => 0,
    game_lost := false, game_won_cache := none }

/-- The 1×4 `sampleBoard` with `(0,1)` flagged. -/
def flaggedSample : Minefield :=
  { sampleBoard with field_map := fun r c => if r = 0 ∧ c = 1 then 2 else 0 }

/-! ## C9: termination and single transitions -/

/-- C9: for every state and in-bounds coordinate, the recursive flood-fill of
`dig` terminates within grid-size recursion depth — any fuel beyond the
`height*width + 1` actually used gives the identical result — and each cell
transitions from buried to dug at most once: a cell's visibility either stays
exactly what it was, or moves from buried (`0`) to dug (`1`); already-dug and
flagged cells are never changed. -/
theorem dig_flood_terminates (st : Minefield) (r c : Nat)
    (hr : r < st.height) (hc : c < st.width) :
    (∀ extra : Nat,
      digAux st.field st.height st.width (st.height * st.width + 1 + extra)
        ⟨st.field_map, st.game_lost⟩ r c =
        digAux st.field st.height st.width (st.height * st.width + 1)
          ⟨st.field_map, st.game_lost⟩ r c) ∧
    (∀ x y : Nat,
      (digAux st.field st.height st.width (st.height * st.width + 1)
        ⟨st.field_map, st.game_lost⟩ r c).map x y = st.field_map x y ∨
        (st.field_map x y = 0 ∧
          (digAux st.field st.height st.width (st.height * st.width + 1)
            ⟨st.field_map, st.game_lost⟩ r c).map x y = 1)) := by
  constructor
  · intro extra
    exact digAux_fuel_congr st.field st.height st.width (st.height * st.width) _ _
      ⟨st.field_map, st.game_lost⟩ r c hr hc
      (by show buriedCount st.height st.width st.field_map ≤ st.height * st.width
          exact buriedCount_le_total st.height st.width st.field_map)
      (by omega) (by omega)
  · exact digAux_mono st.field st.height st.width (st.height * st.width + 1)
      ⟨st.field_map, st.game_lost⟩ r c

theorem dig_flood_terminates_witness :
    (0 : Nat) < sampleBoard.height ∧ (0 : Nat) < sampleBoard.width ∧
    digAux sampleBoard.field sampleBoard.height sampleBoard.width
      (sampleBoard.height * sampleBoard.width + 1 + 7)
      ⟨sampleBoard.field_map, sampleBoard.game_lost⟩ 0 0 =
      digAux sampleBoard.field sampleBoard.height sampleBoard.width
        (sampleBoard.height * sampleBoard.width + 1)
        ⟨sampleBoard.field_map, sampleBoard.game_lost⟩ 0 0 :=
  ⟨by decide, by decide,
    (dig_flood_terminates sampleBoard 0 0 (by decide) (by decide)).1 7⟩

/-! ## C6: digging a dug or flagged cell is a no-op -/

/-- C6: for every state and every in-bounds coordinate whose cell is dug or
flagged, `dig` is a no-op: it returns the state unchanged, so the visibility
grid, the lost flag and the value of `game_won` are all unchanged. -/
theorem dig_noop_not_buried (st : Minefield) (r c : Nat)
    (hr : r < st.height) (hc : c < st.width)
    (h : st.field_map r c = 1 ∨ st.field_map r c = 2) :
    Minefield.dig st (r : Int) (c : Int) = Except.ok st ∧
    (∀ st', Minefield.dig st (r : Int) (c : Int) = Except.ok st' →
      st'.field_map = st.field_map ∧ st'.game_lost = st.game_lost ∧
      st'.game_won = st.game_won) := by
  have h0 : ¬ st.field_map r c = 0 := by rcases h with h | h <;> omega
  have hd : digAux st.field st.height st.width (st.height * st.width + 1)
      ⟨st.field_map, st.game_lost⟩ r c = ⟨st.field_map, st.game_lost⟩ := by
    rw [digAux_succ, if_neg h0]
  have hok : Minefield.dig st (r : Int) (c : Int) = Except.ok st := by
    rw [dig_coe st r c hr hc, hd]
  refine ⟨hok, ?_⟩
  intro st' hst'
  rw [hok] at hst'
  have := Except.ok.inj hst'
  subst this
  exact ⟨rfl, rfl, rfl⟩

theorem dig_noop_not_buried_witness :
    (0 : Nat) < flaggedSample.height ∧ (1 : Nat) < flaggedSample.width ∧
    (flaggedSample.field_map 0 1 = 1 ∨ flaggedSample.field_map 0 1 = 2) ∧
    Minefield.dig flaggedSample 0 1 = Except.ok flaggedSample :=
  ⟨by decide, by decide, Or.inr rfl,
    (dig_noop_not_buried flaggedSample 0 1 (by decide) (by decide) (Or.inr rfl)).1⟩

/-! ## C5: digging a buried mine -/

/-- C5: digging an in-bounds buried mine sets exactly that cell to dug, sets
the lost flag, changes nothing else, and the lost flag is permanent: no
`dig`, `flag` or `game_won` call ever resets it. -/
theorem dig_mine_loses (st : Minefield) (r c : Nat)
    (hr : r < st.height) (hc : c < st.width)
    (hb : st.field_map r c = 0) (hm : st.field r c = -1) :
    (∃ st', Minefield.dig st (r : Int) (c : Int) = Except.ok st' ∧
      st'.field_map r c = 1 ∧ st'.game_lost = true ∧
      (∀ x y : Nat, ¬(x = r ∧ y = c) → st'.field_map x y = st.field_map x y) ∧
      st'.field = st.field ∧ st'.width = st.width ∧ st'.height = st.height ∧
      st'.mine_amnt = st.mine_amnt) ∧
    (∀ (s s' : Minefield) (a b : Int), s.game_lost = true →
      (Minefield.dig s a b = Except.ok s' → s'.game_lost = true) ∧
      (Minefield.flag s a b = Except.ok s' → s'.game_lost = true)) ∧
    (∀ s : Minefield, s.game_lost = true →
      ((Minefield.game_won_run s).2).game_lost = true) := by
  refine ⟨?_, ?_, ?_⟩
  · have hd : digAux st.field st.height st.width (st.height * st.width + 1)
        ⟨st.field_map, st.game_lost⟩ r c = ⟨setMap st.field_map r c 1, true⟩ := by
      rw [digAux_succ, if_pos hb, if_pos hm]
    refine ⟨{ st with field_map := setMap st.field_map r c 1, game_lost := true },
      ?_, ?_, rfl, ?_, rfl, rfl, rfl, rfl⟩
    · rw [dig_coe st r c hr hc, hd]
    · exact setMap_same st.field_map r c 1
    · intro x y hxy
      exact setMap_other st.field_map r c 1 x y hxy
  · intro s s' a b hl
    constructor
    · intro hdig
      obtain ⟨rn, cn, -, -, rfl⟩ := dig_ok_inv hdig
      exact digAux_lost_mono s.field s.height s.width _ ⟨s.field_map, s.game_lost⟩ rn cn hl
    · intro hflag
      obtain ⟨rn, cn, -, -, rfl⟩ := flag_ok_inv hflag
      split
      · exact hl
      · split
        · exact hl
        · exact hl
  · intro s hl
    simp [Minefield.game_won_run, hl]

theorem dig_mine_loses_witness :
    sampleMineBoard.field 0 0 = -1 ∧ sampleMineBoard.field_map 0 0 = 0 ∧
    (∃ st', Minefield.dig sampleMineBoard 0 0 = Except.ok st' ∧
      st'.game_lost = true ∧ st'.field_map 1 1 = 0) := by
  refine ⟨rfl, rfl, ?_⟩
  obtain ⟨⟨st', h1, -, h3, h4, -⟩, -, -⟩ :=
    dig_mine_loses sampleMineBoard 0 0 (by decide) (by decide) rfl rfl
  exact ⟨st', h1, h3, by rw [h4 1 1 (by simp)]; rfl⟩

/-! ## C4: out-of-bounds coordinates -/

theorem dig_error_of_none {s : Minefield} {a b : Int}
    (h : npIndex s.height a = none ∨ npIndex s.width b = none) :
    Minefield.dig s a b = Except.error "IndexError" := by
  unfold Minefield.dig
  rcases h1 : npIndex s.height a with _ | rn <;>
    rcases h2 : npIndex s.width b with _ | cn
  · rfl
  · rfl
  · rfl
  · exfalso
    rcases h with h' | h'
    · rw [h1] at h'; cases h'
    · rw [h2] at h'; cases h'

theorem flag_error_of_none {s : Minefield} {a b : Int}
    (h : npIndex s.height a = none ∨ npIndex s.width b = none) :
    Minefield.flag s a b = Except.error "IndexError" := by
  unfold Minefield.flag
  rcases h1 : npIndex s.height a with _ | rn <;>
    rcases h2 : npIndex s.width b with _ | cn
  · rfl
  · rfl
  · rfl
  · exfalso
    rcases h with h' | h'
    · rw [h1] at h'; cases h'
    · rw [h2] at h'; cases h'

/-- C4 (amended): only coordinates outside numpy's index range
`[-height, height)` (resp. `[-width, width)`) make `dig` and `flag` raise
`IndexError` with the state untouched; an in-range negative coordinate does
not error but wraps Python-style to the index `n + i` counted from the end.
The core performs no bounds validation of its own — the interaction loop
validates before calling. -/
theorem dig_flag_numpy_range (st : Minefield) (r c : Int)
    (h : r < -(st.height : Int) ∨ (st.height : Int) ≤ r ∨
      c < -(st.width : Int) ∨ (st.width : Int) ≤ c) :
    Minefield.dig st r c = Except.error "IndexError" ∧
    Minefield.flag st r c = Except.error "IndexError" ∧
    (∀ (n : Nat) (i : Int), -(n : Int) ≤ i → i < 0 →
      npIndex n i = some (i + n).toNat) := by
  have hnone : npIndex st.height r = none ∨ npIndex st.width c = none := by
    rcases h with h | h | h | h
    · exact Or.inl (npIndex_none _ _ (Or.inl h))
    · exact Or.inl (npIndex_none _ _ (Or.inr h))
    · exact Or.inr (npIndex_none _ _ (Or.inl h))
    · exact Or.inr (npIndex_none _ _ (Or.inr h))
  exact ⟨dig_error_of_none hnone, flag_error_of_none hnone, npIndex_neg⟩

theorem dig_flag_numpy_range_witness :
    Minefield.dig sampleBoard 5 0 = Except.error "IndexError" ∧
    Minefield.flag sampleBoard 5 0 = Except.error "IndexError" := by
  have h := dig_flag_numpy_range sampleBoard 5 0 (Or.inr (Or.inl (by decide)))
  exact ⟨h.1, h.2.1⟩

/-- C4 fails as stated: `dig(-1, 0)` does not signal an out-of-bounds
condition and does not leave the state unchanged — numpy wraps the negative
row index to the last row, whose cell `(1,0)` gets dug. -/
theorem dig_negative_index_counterexample :
    sampleMineBoard.field_map 1 0 = 0 ∧
    (Minefield.dig sampleMineBoard (-1) 0).map
      (fun s => (s.field_map 1 0, s.game_lost)) = Except.ok (1, false) :=
  ⟨rfl, rfl⟩

/-! ## The win query -/

/-- `game_won` returns true exactly when the game is not lost and the dug
cell count matches the number of safe cells. -/
theorem game_won_iff_core (st : Minefield) :
    st.game_won = true ↔
      (st.game_lost = false ∧
        (dugCount st.height st.width st.field_map : Int) =
          (st.height : Int) * (st.width : Int) - (st.mine_amnt : Int)) := by
  by_cases hl : st.game_lost = false
  · by_cases hcount : (dugCount st.height st.width st.field_map : Int) =
        (st.height : Int) * (st.width : Int) - (st.mine_amnt : Int)
    · simp [Minefield.game_won, Minefield.game_won_run, hl, hcount]
    · simp [Minefield.game_won, Minefield.game_won_run, hl, hcount]
  · simp [Minefield.game_won, Minefield.game_won_run, hl]

/-- Toggling a cell between buried and flagged never changes the dug count. -/
theorem dugCount_setMap_noop (hgt wid : Nat) (m : FieldMap) (r c v : Nat)
    (hold : m r c ≠ 1) (hv : v ≠ 1) :
    dugCount hgt wid (setMap m r c v) = dugCount hgt wid m := by
  apply List.countP_congr
  intro p _
  by_cases hp : p.1 = r ∧ p.2 = c
  · obtain ⟨h1, h2⟩ := hp
    rw [setMap, if_pos ⟨h1, h2⟩, h1, h2]
    simp only [beq_iff_eq]
    constructor
    · intro h; exact absurd h hv
    · intro h; exact absurd h hold
  · rw [setMap_other m r c v p.1 p.2 hp]

/-- The three possible results of `flag` leave `game_lost`, all dimensions,
the board and the win value unchanged. -/
theorem flag_result_game_won (s : Minefield) (rn cn : Nat) :
    (if s.field_map rn cn = 0 then { s with field_map := setMap s.field_map rn cn 2 }
      else if s.field_map rn cn = 2 then { s with field_map := setMap s.field_map rn cn 0 }
      else s).game_won = s.game_won := by
  split
  · rename_i h0
    rw [Bool.eq_iff_iff, game_won_iff_core, game_won_iff_core]
    show (s.game_lost = false ∧
        (dugCount s.height s.width (setMap s.field_map rn cn 2) : Int) = _) ↔ _
    rw [dugCount_setMap_noop s.height s.width s.field_map rn cn 2 (by omega) (by omega)]
  · split
    · rename_i h0 h2
      rw [Bool.eq_iff_iff, game_won_iff_core, game_won_iff_core]
      show (s.game_lost = false ∧
          (dugCount s.height s.width (setMap s.field_map rn cn 0) : Int) = _) ↔ _
      rw [dugCount_setMap_noop s.height s.width s.field_map rn cn 0 (by omega) (by omega)]
    · rfl

/-- C3: for every state, `game_won` returns true iff the game is not lost
and the number of dug cells equals `width*height - mine_count`; flag
placement (anywhere, including on mines) has no effect on the result. -/
theorem game_won_spec (st : Minefield) :
    (st.game_won = true ↔
      (st.game_lost = false ∧
        (dugCount st.height st.width st.field_map : Int) =
          (st.height : Int) * (st.width : Int) - (st.mine_amnt : Int))) ∧
    (∀ (a b : Int) (st' : Minefield), Minefield.flag st a b = Except.ok st' →
      st'.game_won = st.game_won) := by
  refine ⟨game_won_iff_core st, ?_⟩
  intro a b st' hflag
  obtain ⟨rn, cn, -, -, rfl⟩ := flag_ok_inv hflag
  exact flag_result_game_won st rn cn

theorem game_won_spec_witness :
    ∃ st' : Minefield, Minefield.flag sampleBoard 0 0 = Except.ok st' ∧
      st'.game_won = sampleBoard.game_won :=
  ⟨_, rfl, (game_won_spec sampleBoard).2 0 0 _ rfl⟩

/-! ## C8: the flag toggle -/

theorem flag_coe (st : Minefield) (r c : Nat) (hr : r < st.height) (hc : c < st.width) :
    Minefield.flag st (r : Int) (c : Int) =
      Except.ok
        (if st.field_map r c = 0 then { st with field_map := setMap st.field_map r c 2 }
         else if st.field_map r c = 2 then { st with field_map := setMap st.field_map r c 0 }
         else st) := by
  simp only [Minefield.flag, npIndex_of_lt st.height r hr, npIndex_of_lt st.width c hc]

theorem setMap_restore (m : FieldMap) (r c old : Nat) (v : Nat) (h : m r c = old) :
    setMap (setMap m r c v) r c old = m := by
  funext a b
  by_cases hab : a = r ∧ b = c
  · obtain ⟨rfl, rfl⟩ := hab
    rw [setMap_same, h]
  · rw [setMap_other _ _ _ _ _ _ hab, setMap_other _ _ _ _ _ _ hab]

/-- C8: for every state and in-bounds coordinate, `flag` turns a buried cell
into a flagged one and a flagged cell back into a buried one — so flagging
twice restores the original state exactly — is a no-op on a dug cell, never
changes any other cell, never propagates, and never changes the lost flag or
the win value. -/
theorem flag_toggle (st : Minefield) (r c : Nat)
    (hr : r < st.height) (hc : c < st.width) :
    (st.field_map r c = 0 →
      ∃ st', Minefield.flag st (r : Int) (c : Int) = Except.ok st' ∧
        st'.field_map r c = 2 ∧
        (∀ x y : Nat, ¬(x = r ∧ y = c) → st'.field_map x y = st.field_map x y) ∧
        st'.game_lost = st.game_lost ∧ st'.game_won = st.game_won ∧
        st'.field = st.field ∧
        Minefield.flag st' (r : Int) (c : Int) = Except.ok st) ∧
    (st.field_map r c = 2 →
      ∃ st', Minefield.flag st (r : Int) (c : Int) = Except.ok st' ∧
        st'.field_map r c = 0 ∧
        (∀ x y : Nat, ¬(x = r ∧ y = c) → st'.field_map x y = st.field_map x y) ∧
        st'.game_lost = st.game_lost ∧ st'.game_won = st.game_won ∧
        st'.field = st.field) ∧
    (st.field_map r c = 1 → Minefield.flag st (r : Int) (c : Int) = Except.ok st) := by
  refine ⟨?_, ?_, ?_⟩
  · intro h0
    refine ⟨{ st with field_map := setMap st.field_map r c 2 }, ?_, ?_, ?_, rfl, ?_, rfl, ?_⟩
    · rw [flag_coe st r c hr hc, if_pos h0]
    · exact setMap_same st.field_map r c 2
    · intro x y hxy
      exact setMap_other st.field_map r c 2 x y hxy
    · have hg := flag_result_game_won st r c
      rw [if_pos h0] at hg
      exact hg
    · have hflag2 : Minefield.flag { st with field_map := setMap st.field_map r c 2 }
          (r : Int) (c : Int) =
          Except.ok { st with field_map := setMap (setMap st.field_map r c 2) r c 0 } := by
        rw [flag_coe { st with field_map := setMap st.field_map r c 2 } r c hr hc]
        simp [setMap_same]
      rw [hflag2, setMap_restore st.field_map r c 0 2 h0]
  · intro h2
    refine ⟨{ st with field_map := setMap st.field_map r c 0 }, ?_, ?_, ?_, rfl, ?_, rfl⟩
    · rw [flag_coe st r c hr hc, if_neg (by omega), if_pos h2]
    · exact setMap_same st.field_map r c 0
    · intro x y hxy
      exact setMap_other st.field_map r c 0 x y hxy
    · have hg := flag_result_game_won st r c
      rw [if_neg (by omega), if_pos h2] at hg
      exact hg
  · intro h1
    rw [flag_coe st r c hr hc, if_neg (by omega), if_neg (by omega)]

theorem flag_toggle_witness :
    sampleBoard.field_map 0 0 = 0 ∧
    (∃ st', Minefield.flag sampleBoard 0 0 = Except.ok st' ∧
      st'.field_map 0 0 = 2 ∧
      Minefield.flag st' 0 0 = Except.ok sampleBoard) := by
  refine ⟨rfl, ?_⟩
  obtain ⟨st', h1, h2, -, -, -, -, h7⟩ :=
    (flag_toggle sampleBoard 0 0 (by decide) (by decide)).1 rfl
  exact ⟨st', h1, h2, h7⟩

/-! ## C10: the win query only writes the transient cache -/

/-- C10: evaluating the `game_won` query leaves the dimensions, the board,
the visibility grid, and the lost flag unchanged — its only mutation is the
transient `_game_won` cache — and no operation reads that cache: `dig`,
`flag`, `game_lost`, and `game_won` itself behave identically whatever the
cache holds. -/
theorem game_won_frame (st : Minefield) :
    (Minefield.game_won_run st).2 =
      { st with game_won_cache := some ((Minefield.game_won_run st).1) } ∧
    (∀ cb : Option Bool,
      Minefield.game_won { st with game_won_cache := cb } = Minefield.game_won st ∧
      ({ st with game_won_cache := cb } : Minefield).game_lost = st.game_lost ∧
      (∀ a b : Int,
        Minefield.dig { st with game_won_cache := cb } a b =
          Except.map (fun s => { s with game_won_cache := cb }) (Minefield.dig st a b) ∧
        Minefield.flag { st with game_won_cache := cb } a b =
          Except.map (fun s => { s with game_won_cache := cb }) (Minefield.flag st a b))) := by
  refine ⟨?_, ?_⟩
  · by_cases hl : st.game_lost = false
    · by_cases hcount : (dugCount st.height st.width st.field_map : Int) =
          (st.height : Int) * (st.width : Int) - (st.mine_amnt : Int)
      · simp [Minefield.game_won_run, hl, hcount]
      · simp [Minefield.game_won_run, hl, hcount]
    · simp [Minefield.game_won_run, hl]
  · intro cb
    refine ⟨rfl, rfl, ?_⟩
    intro a b
    constructor
    · show Minefield.dig { st with game_won_cache := cb } a b =
        Except.map (fun s => { s with game_won_cache := cb }) (Minefield.dig st a b)
      unfold Minefield.dig
      rcases h1 : npIndex st.height a with _ | rn <;>
        rcases h2 : npIndex st.width b with _ | cn <;> rfl
    · show Minefield.flag { st with game_won_cache := cb } a b =
        Except.map (fun s => { s with game_won_cache := cb }) (Minefield.flag st a b)
      unfold Minefield.flag
      rcases h1 : npIndex st.height a with _ | rn <;>
        rcases h2 : npIndex st.width b with _ | cn
      · rfl
      · rfl
      · rfl
      · by_cases hp0 : st.field_map rn cn = 0
        · simp [Except.map, hp0]
        · by_cases hp2 : st.field_map rn cn = 2
          · simp [Except.map, hp0, hp2]
          · simp [Except.map, hp0, hp2]

/-! ## C7: construction -/

theorem product_append {α β : Type} (l₁ l₂ : List α) (r : List β) :
    (l₁ ++ l₂) ×ˢ r = (l₁ ×ˢ r) ++ (l₂ ×ˢ r) := by
  induction l₁ with
  | nil => rfl
  | cons a t ih => simp [List.product_cons, ih]

/-- Counting over the grid in row-major order is counting over the flat
index range. -/
theorem countP_cellIdx_flat (wid : Nat) (Q : Nat → Bool) :
    ∀ hgt : Nat, (cellIdx hgt wid).countP (fun p => Q (p.1 * wid + p.2)) =
      (List.range (hgt * wid)).countP Q := by
  intro hgt
  induction hgt with
  | zero => rw [Nat.zero_mul]; rfl
  | succ h ih =>
    rw [cellIdx, List.range_succ, product_append, List.countP_append]
    rw [show (List.range h ×ˢ List.range wid) = cellIdx h wid from rfl, ih]
    have h2 : (([h] : List Nat) ×ˢ List.range wid).countP (fun p => Q (p.1 * wid + p.2)) =
        (List.range wid).countP (fun b => Q (h * wid + b)) := by
      rw [show (([h] : List Nat) ×ˢ List.range wid) =
          (List.range wid).map (fun b => (h, b)) from by simp [List.product_cons]]
      rw [List.countP_map]
      rfl
    rw [h2]
    have h3 : (h + 1) * wid = h * wid + wid := by ring
    rw [h3, List.range_add, List.countP_append, List.countP_map]
    rfl

/-- Counting matching entries of a flat array through `getD` over its index
range is counting matching elements. -/
theorem countP_getD_eq_count (x : Int) :
    ∀ l : List Int, (List.range l.length).countP (fun i => l.getD i 0 == x) = l.count x := by
  intro l
  induction l with
  | nil => rfl
  | cons a t ih =>
    rw [List.length_cons, List.range_succ_eq_map, List.countP_cons, List.countP_map,
      List.count_cons]
    have h1 : (List.range t.length).countP
        ((fun i => (a :: t).getD i 0 == x) ∘ Nat.succ) =
        (List.range t.length).countP (fun i => t.getD i 0 == x) := rfl
    rw [h1, ih]
    rfl

theorem count_base_field (m n : Nat) : (base_field m n).count (-1) = m := by
  rw [base_field, List.count_append]
  simp [List.count_replicate]

theorem countP_bnot {α : Type} (l : List α) (p : α → Bool) :
    l.countP (fun a => !(p a)) = l.length - l.countP p := by
  induction l with
  | nil => rfl
  | cons a t ih =>
    rw [List.countP_cons, List.countP_cons, List.length_cons, ih]
    have ht : t.countP p ≤ t.length := List.countP_le_length p
    by_cases h : p a = true <;> (simp [h]; try omega)

/-- Any permutation of the flat mine array produces, after reshaping and the
adjacency pass, exactly `m` mines and `hgt*wid - m` numbered cells. -/
theorem counts_of_perm (m hgt wid : Nat) (l : List Int) (hm : m ≤ hgt * wid)
    (hperm : l.Perm (base_field m (hgt * wid))) :
    mineCount hgt wid (locate_mines hgt wid (reshape wid l)) = m ∧
    (cellIdx hgt wid).countP
      (fun p => locate_mines hgt wid (reshape wid l) p.1 p.2 != -1) =
      hgt * wid - m := by
  have hbase : BaseValues (reshape wid l) := base_values_of_perm hperm wid
  have hgood : GoodField (reshape wid l) := fun a b => by rcases hbase a b with h | h <;> omega
  have hlen : l.length = hgt * wid := by
    have := hperm.length_eq
    rw [base_field, List.length_append, List.length_replicate, List.length_replicate] at this
    omega
  have hmine_pt : ∀ p : Nat × Nat,
      (locate_mines hgt wid (reshape wid l) p.1 p.2 == -1) =
        (reshape wid l p.1 p.2 == -1) := by
    intro p
    have hiff := locate_mines_mine_iff hgood hgt wid p.1 p.2
    by_cases h : reshape wid l p.1 p.2 = -1
    · simp [h, hiff.mpr h]
    · have : locate_mines hgt wid (reshape wid l) p.1 p.2 ≠ -1 := fun hcon => h (hiff.mp hcon)
      simp [h, this]
  have h1 : mineCount hgt wid (locate_mines hgt wid (reshape wid l)) =
      mineCount hgt wid (reshape wid l) := by
    apply List.countP_congr
    intro p _
    rw [hmine_pt p]
  have h2 : mineCount hgt wid (reshape wid l) = m := by
    rw [mineCount,
      show (fun p : Nat × Nat => reshape wid l p.1 p.2 == -1) =
        (fun p : Nat × Nat => (fun i => l.getD i 0 == -1) (p.1 * wid + p.2)) from rfl,
      countP_cellIdx_flat wid (fun i => l.getD i 0 == -1) hgt, ← hlen,
      countP_getD_eq_count, hperm.count_eq, count_base_field]
  refine ⟨h1.trans h2, ?_⟩
  have h3 : (cellIdx hgt wid).countP
      (fun p => locate_mines hgt wid (reshape wid l) p.1 p.2 != -1) =
      (cellIdx hgt wid).length - (cellIdx hgt wid).countP
        (fun p => locate_mines hgt wid (reshape wid l) p.1 p.2 == -1) :=
    countP_bnot (cellIdx hgt wid) (fun p => locate_mines hgt wid (reshape wid l) p.1 p.2 == -1)
  rw [h3, cellIdx_length]
  have h4 : (cellIdx hgt wid).countP
      (fun p => locate_mines hgt wid (reshape wid l) p.1 p.2 == -1) = m := h1.trans h2
  rw [h4]

/-- C7 (amended): construction with the tokens `EASY`, `MED`, `HARD` yields
`(mine_count, width, height)` equal to `(10,8,8)`, `(40,15,15)`,
`(40,30,16)` respectively; the board contains exactly `mine_amnt` mine cells
and `width*height - mine_amnt` numbered cells; every cell starts buried and
the lost flag false; any other token — including `MEDIUM` — is outside the
difficulty dictionary and signals the lookup failure. -/
theorem mk_game_spec (mode : String) (l : List Int) :
    (mode ≠ "EASY" → mode ≠ "MED" → mode ≠ "HARD" →
      Minefield.mk_game mode l = none) ∧
    (∀ st : Minefield, Minefield.mk_game mode l = some st →
      ((mode = "EASY" → st.mine_amnt = 10 ∧ st.width = 8 ∧ st.height = 8) ∧
       (mode = "MED" → st.mine_amnt = 40 ∧ st.width = 15 ∧ st.height = 15) ∧
       (mode = "HARD" → st.mine_amnt = 40 ∧ st.width = 30 ∧ st.height = 16)) ∧
      st.field_map = (fun _ _ => 0) ∧ st.game_lost = false ∧
      (l.Perm (base_field st.mine_amnt (st.height * st.width)) →
        mineCount st.height st.width st.field = st.mine_amnt ∧
        (cellIdx st.height st.width).countP (fun p => st.field p.1 p.2 != -1) =
          st.height * st.width - st.mine_amnt)) := by
  constructor
  · intro h1 h2 h3
    simp only [Minefield.mk_game, diff_mode, if_neg h1, if_neg h2, if_neg h3]
  · intro st hst
    obtain ⟨-, hmap, hlost, -⟩ := mk_game_inv hst
    refine ⟨⟨?_, ?_, ?_⟩, hmap, hlost, ?_⟩
    · rintro rfl
      obtain rfl := Option.some.inj hst
      exact ⟨rfl, rfl, rfl⟩
    · rintro rfl
      obtain rfl := Option.some.inj hst
      exact ⟨rfl, rfl, rfl⟩
    · rintro rfl
      obtain rfl := Option.some.inj hst
      exact ⟨rfl, rfl, rfl⟩
    · intro hperm
      by_cases hE : mode = "EASY"
      · subst hE
        obtain rfl := Option.some.inj hst
        exact counts_of_perm 10 8 8 l (by omega) hperm
      · by_cases hM : mode = "MED"
        · subst hM
          obtain rfl := Option.some.inj hst
          exact counts_of_perm 40 15 15 l (by omega) hperm
        · by_cases hH : mode = "HARD"
          · subst hH
            obtain rfl := Option.some.inj hst
            exact counts_of_perm 40 16 30 l (by omega) hperm
          · rw [show Minefield.mk_game mode l = none by
              simp only [Minefield.mk_game, diff_mode, if_neg hE, if_neg hM, if_neg hH]] at hst
            cases hst

/-- C7 fails as stated: the medium difficulty token in the dictionary is
`MED`, so the token `MEDIUM` named by the claim signals the lookup failure
instead of yielding `(40, 15, 15)`. -/
theorem mk_game_medium_counterexample :
    Minefield.mk_game "MEDIUM" (base_field 40 225) = none := rfl

theorem mk_game_spec_witness :
    ∃ st : Minefield, Minefield.mk_game "EASY" (base_field 10 64) = some st ∧
      st.mine_amnt = 10 ∧ st.width = 8 ∧ st.height = 8 ∧
      st.game_lost = false ∧ mineCount st.height st.width st.field = 10 := by
  obtain ⟨htriple, hmap, hlost, hcount⟩ :=
    (mk_game_spec "EASY" (base_field 10 64)).2 _ rfl
  refine ⟨_, rfl, (htriple.1 rfl).1, (htriple.1 rfl).2.1, (htriple.1 rfl).2.2, hlost, ?_⟩
  rw [(hcount (List.Perm.refl _)).1, (htriple.1 rfl).1]

/-! ## C2: the flood fill

Reachability through buried zero-count cells characterises exactly the cells
`dig` reveals. -/

/-- `ReachB f m0 hgt wid r c x y`: starting from the cell `(r, c)`, the cell
`(x, y)` is reachable by repeatedly stepping from a reached buried zero-count
cell to one of its surrounding buried cells.  On an all-buried board this is
precisely the connected zero region of `(r, c)` together with its bordering
cells. -/
inductive ReachB (f : Field) (m0 : FieldMap) (hgt wid : Nat) (r c : Nat) :
    Nat → Nat → Prop
  | base : ReachB f m0 hgt wid r c r c
  | step {r₁ c₁ r₂ c₂ : Nat} : ReachB f m0 hgt wid r c r₁ c₁ →
      m0 r₁ c₁ = 0 → f r₁ c₁ = 0 → (r₂, c₂) ∈ surroundsN hgt wid r₁ c₁ →
      m0 r₂ c₂ = 0 → ReachB f m0 hgt wid r c r₂ c₂

theorem reachB_trans {f : Field} {m0 : FieldMap} {hgt wid r c p₁ p₂ x y : Nat}
    (h1 : ReachB f m0 hgt wid r c p₁ p₂) (h2 : ReachB f m0 hgt wid p₁ p₂ x y) :
    ReachB f m0 hgt wid r c x y := by
  induction h2 with
  | base => exact h1
  | step hre hm hf hsur hm' ih => exact ReachB.step ih hm hf hsur hm'

theorem reachB_start_cases {f : Field} {m0 : FieldMap} {hgt wid r c x y : Nat}
    (h : ReachB f m0 hgt wid r c x y) :
    (x = r ∧ y = c) ∨ (m0 r c = 0 ∧ f r c = 0) := by
  induction h with
  | base => exact Or.inl ⟨rfl, rfl⟩
  | step hre hm hf hsur hm' ih =>
    rcases ih with ⟨rfl, rfl⟩ | hrc
    · exact Or.inr ⟨hm, hf⟩
    · exact Or.inr hrc

theorem reachB_mono_map {f : Field} {m' m0 : FieldMap} {hgt wid r c x y : Nat}
    (hbet : ∀ a b, m' a b = 0 → m0 a b = 0)
    (h : ReachB f m' hgt wid r c x y) : ReachB f m0 hgt wid r c x y := by
  induction h with
  | base => exact ReachB.base
  | step hre hm hf hsur hm' ih =>
    exact ReachB.step ih (hbet _ _ hm) hf hsur (hbet _ _ hm')

theorem reachB_inbounds {f : Field} {m0 : FieldMap} {hgt wid r c x y : Nat}
    (hr : r < hgt) (hc : c < wid)
    (h : ReachB f m0 hgt wid r c x y) : x < hgt ∧ y < wid := by
  induction h with
  | base => exact ⟨hr, hc⟩
  | step hre hm hf hsur hm' ih => exact surroundsN_bounds hsur

theorem reachB_elim {f : Field} {m0 : FieldMap} {hgt wid r c x y : Nat}
    (h : ReachB f m0 hgt wid r c x y) :
    (x = r ∧ y = c) ∨
      ∃ r₁ c₁, ReachB f m0 hgt wid r c r₁ c₁ ∧ m0 r₁ c₁ = 0 ∧ f r₁ c₁ = 0 ∧
        (x, y) ∈ surroundsN hgt wid r₁ c₁ := by
  cases h with
  | base => exact Or.inl ⟨rfl, rfl⟩
  | step hre hm hf hsur hm' => exact Or.inr ⟨_, _, hre, hm, hf, hsur⟩

theorem reachB_prepend {f : Field} {m0 : FieldMap} {hgt wid r c x y : Nat}
    {p : Nat × Nat}
    (h0 : m0 r c = 0) (hf : f r c = 0) (hp : p ∈ surroundsN hgt wid r c)
    (hmp : m0 p.1 p.2 = 0) (h : ReachB f m0 hgt wid p.1 p.2 x y) :
    ReachB f m0 hgt wid r c x y :=
  reachB_trans (ReachB.step ReachB.base h0 hf (by simpa using hp) hmp) h

/-- Soundness: every cell dug by `dig` either was dug before or is reachable
from the dug coordinate through buried zero cells. -/
theorem digAux_sound (f : Field) (hgt wid : Nat) :
    ∀ (fuel : Nat) (s : DigState) (r c x y : Nat),
      (digAux f hgt wid fuel s r c).map x y = 1 →
      s.map x y = 1 ∨ ReachB f s.map hgt wid r c x y := by
  intro fuel
  induction fuel with
  | zero => intro s r c x y h; exact Or.inl h
  | succ n ih =>
    intro s r c x y h
    rw [digAux_succ] at h
    by_cases h0 : s.map r c = 0
    · rw [if_pos h0] at h
      by_cases hm : f r c = -1
      · rw [if_pos hm] at h
        replace h : setMap s.map r c 1 x y = 1 := h
        by_cases hxy : x = r ∧ y = c
        · obtain ⟨rfl, rfl⟩ := hxy
          exact Or.inr ReachB.base
        · rw [setMap_other _ _ _ _ _ _ hxy] at h
          exact Or.inl h
      · rw [if_neg hm] at h
        by_cases hz : f r c = 0
        · rw [if_pos hz] at h
          have key : ∀ (l : List (Nat × Nat)), (∀ p ∈ l, p ∈ surroundsN hgt wid r c) →
              ∀ s' : DigState, (∀ a b, s'.map a b = 0 → s.map a b = 0) →
                (l.foldl (fun acc p => digAux f hgt wid n acc p.1 p.2) s').map x y = 1 →
                s'.map x y = 1 ∨ ReachB f s.map hgt wid r c x y := by
            intro l
            induction l with
            | nil => intro _ s' _ hfold; exact Or.inl hfold
            | cons p t iht =>
              intro hsub s' hbet hfold
              simp only [List.foldl_cons] at hfold
              have hbet' : ∀ a b, (digAux f hgt wid n s' p.1 p.2).map a b = 0 →
                  s.map a b = 0 := by
                intro a b hab
                rcases digAux_mono f hgt wid n s' p.1 p.2 a b with hh | hh
                · exact hbet a b (hh ▸ hab)
                · rw [hab] at hh; cases hh.2
              rcases iht (fun q hq => hsub q (List.mem_cons_of_mem _ hq))
                (digAux f hgt wid n s' p.1 p.2) hbet' hfold with h1 | h1
              · rcases digAux_mono f hgt wid n s' p.1 p.2 x y with hmx | hmx
                · rw [hmx] at h1
                  exact Or.inl h1
                · have hs'0 : s'.map x y = 0 := hmx.1
                  rcases ih s' p.1 p.2 x y h1 with h2 | h2
                  · exact Or.inl h2
                  · have h3 : ReachB f s.map hgt wid p.1 p.2 x y :=
                      reachB_mono_map hbet h2
                    have hp_sur : p ∈ surroundsN hgt wid r c :=
                      hsub p (List.mem_cons_self p t)
                    rcases reachB_start_cases h3 with ⟨hx1, hy1⟩ | hstart
                    · have hsp : s.map p.1 p.2 = 0 := by
                        rw [← hx1, ← hy1]
                        exact hbet x y hs'0
                      exact Or.inr (reachB_prepend h0 hz hp_sur hsp h3)
                    · exact Or.inr (reachB_prepend h0 hz hp_sur hstart.1 h3)
              · exact Or.inr h1
          have hbet1 : ∀ a b, (setMap s.map r c 1) a b = 0 → s.map a b = 0 := by
            intro a b hab
            by_cases h' : a = r ∧ b = c
            · rw [setMap, if_pos h'] at hab; cases hab
            · rwa [setMap, if_neg h'] at hab
          rcases key (surroundsN hgt wid r c) (fun p hp => hp)
            ⟨setMap s.map r c 1, s.lost⟩ hbet1 h with h1 | h1
          · replace h1 : setMap s.map r c 1 x y = 1 := h1
            by_cases hxy : x = r ∧ y = c
            · obtain ⟨rfl, rfl⟩ := hxy
              exact Or.inr ReachB.base
            · rw [setMap_other _ _ _ _ _ _ hxy] at h1
              exact Or.inl h1
          · exact Or.inr h1
        · rw [if_neg hz] at h
          replace h : setMap s.map r c 1 x y = 1 := h
          by_cases hxy : x = r ∧ y = c
          · obtain ⟨rfl, rfl⟩ := hxy
            exact Or.inr ReachB.base
          · rw [setMap_other _ _ _ _ _ _ hxy] at h
            exact Or.inl h
    · rw [if_neg h0] at h
      exact Or.inl h

/-- A dug cell stays dug. -/
theorem digAux_dug_stays (f : Field) (hgt wid fuel : Nat) (s : DigState) (r c a b : Nat)
    (h : s.map a b = 1) : (digAux f hgt wid fuel s r c).map a b = 1 := by
  rcases digAux_mono f hgt wid fuel s r c a b with hh | hh
  · rw [hh]; exact h
  · exact hh.2

theorem digList_dug_stays (f : Field) (hgt wid fuel : Nat) (l : List (Nat × Nat))
    (s : DigState) (a b : Nat) (h : s.map a b = 1) :
    (l.foldl (fun acc p => digAux f hgt wid fuel acc p.1 p.2) s).map a b = 1 :=
  digList_preserve f hgt wid fuel (fun x => x.map a b = 1) l
    (fun x p _ hx => digAux_dug_stays f hgt wid fuel x p.1 p.2 a b hx) s h

theorem digList_mono (f : Field) (hgt wid fuel : Nat) (l : List (Nat × Nat))
    (s : DigState) :
    MapMono s.map ((l.foldl (fun acc p => digAux f hgt wid fuel acc p.1 p.2) s)).map :=
  digList_preserve f hgt wid fuel (fun x => MapMono s.map x.map) l
    (fun x p _ hx => mapMono_trans hx (digAux_mono f hgt wid fuel x p.1 p.2)) s
    (mapMono_refl s.map)

/-- With positive fuel, digging a buried cell digs it. -/
theorem digAux_digs_target (f : Field) (hgt wid : Nat) (fuel : Nat) (s : DigState)
    (r c : Nat) (hfuel : 1 ≤ fuel) (h0 : s.map r c = 0) :
    (digAux f hgt wid fuel s r c).map r c = 1 := by
  obtain ⟨n, rfl⟩ : ∃ n, fuel = n + 1 := ⟨fuel - 1, by omega⟩
  rw [digAux_succ, if_pos h0]
  by_cases hm : f r c = -1
  · rw [if_pos hm]
    exact setMap_same s.map r c 1
  · rw [if_neg hm]
    by_cases hz : f r c = 0
    · rw [if_pos hz]
      exact digList_dug_stays f hgt wid n _ _ r c (setMap_same s.map r c 1)
    · rw [if_neg hz]
      exact setMap_same s.map r c 1

/-- The closure property: every newly dug zero-count cell has each of its
surrounding originally-buried cells dug as well. -/
def ClosedFrom (f : Field) (hgt wid : Nat) (m0 : FieldMap) (D : DigState) : Prop :=
  ∀ x y, m0 x y = 0 → D.map x y = 1 → f x y = 0 →
    ∀ p ∈ surroundsN hgt wid x y, m0 p.1 p.2 = 0 → D.map p.1 p.2 = 1

theorem closedFrom_compose {f : Field} {hgt wid : Nat} {A : FieldMap} {B C : DigState}
    (hAB : MapMono A B.map) (hBC : MapMono B.map C.map)
    (h1 : ClosedFrom f hgt wid A B) (h2 : ClosedFrom f hgt wid B.map C) :
    ClosedFrom f hgt wid A C := by
  intro x y hA hC hf p hp hAp
  rcases hAB x y with hB | hB
  · have hBx : B.map x y = 0 := by rw [hB]; exact hA
    rcases hAB p.1 p.2 with hBp | hBp
    · have hBp0 : B.map p.1 p.2 = 0 := by rw [hBp]; exact hAp
      exact h2 x y hBx hC hf p hp hBp0
    · rcases hBC p.1 p.2 with hC' | hC'
      · rw [hC']; exact hBp.2
      · exact hC'.2
  · have hBp := h1 x y hA hB.2 hf p hp hAp
    rcases hBC p.1 p.2 with hC' | hC'
    · rw [hC']; exact hBp
    · exact hC'.2

/-- The flood fill is closed: with sufficient fuel, after digging, every
newly dug zero cell has all its originally-buried surrounding cells dug. -/
theorem digAux_closed (f : Field) (hgt wid : Nat) :
    ∀ (fuel : Nat) (s : DigState) (r c : Nat), r < hgt → c < wid →
      buriedCount hgt wid s.map < fuel →
      ClosedFrom f hgt wid s.map (digAux f hgt wid fuel s r c) := by
  intro fuel
  induction fuel with
  | zero => intro s r c _ _ hb; omega
  | succ n ih =>
    intro s r c hr hc hb
    rw [digAux_succ]
    by_cases h0 : s.map r c = 0
    · rw [if_pos h0]
      have hbpos : 0 < buriedCount hgt wid s.map :=
        buriedCount_pos hgt wid s.map r c hr hc h0
      have hblt : buriedCount hgt wid (setMap s.map r c 1) < n :=
        lt_of_lt_of_le (buriedCount_lt_setMap hgt wid s.map r c hr hc h0) (by omega)
      by_cases hm : f r c = -1
      · rw [if_pos hm]
        intro x y hx hD hf p hp hxp
        replace hD : setMap s.map r c 1 x y = 1 := hD
        by_cases hxy : x = r ∧ y = c
        · obtain ⟨rfl, rfl⟩ := hxy
          rw [hm] at hf
          cases hf
        · rw [setMap_other _ _ _ _ _ _ hxy] at hD
          rw [hx] at hD
          cases hD
      · rw [if_neg hm]
        by_cases hz : f r c = 0
        · rw [if_pos hz]
          have fold_closed : ∀ (l : List (Nat × Nat)),
              (∀ p ∈ l, p.1 < hgt ∧ p.2 < wid) →
              ∀ s' : DigState, buriedCount hgt wid s'.map < n →
                ClosedFrom f hgt wid s'.map
                  (l.foldl (fun acc p => digAux f hgt wid n acc p.1 p.2) s') := by
            intro l
            induction l with
            | nil =>
              intro _ s' _
              intro x y hx hD hf p hp hxp
              simp only [List.foldl_nil] at hD ⊢
              rw [hx] at hD
              cases hD
            | cons q t iht =>
              intro hmem s' hs'
              simp only [List.foldl_cons]
              have hq := hmem q (List.mem_cons_self q t)
              have hA : ClosedFrom f hgt wid s'.map (digAux f hgt wid n s' q.1 q.2) :=
                ih s' q.1 q.2 hq.1 hq.2 hs'
              have hs'' : buriedCount hgt wid (digAux f hgt wid n s' q.1 q.2).map < n :=
                lt_of_le_of_lt
                  (buriedCount_le_of_mapMono (digAux_mono f hgt wid n s' q.1 q.2) hgt wid)
                  hs'
              have hB : ClosedFrom f hgt wid (digAux f hgt wid n s' q.1 q.2).map
                  (t.foldl (fun acc p => digAux f hgt wid n acc p.1 p.2)
                    (digAux f hgt wid n s' q.1 q.2)) :=
                iht (fun p hp => hmem p (List.mem_cons_of_mem _ hp)) _ hs''
              exact closedFrom_compose (digAux_mono f hgt wid n s' q.1 q.2)
                (digList_mono f hgt wid n t _) hA hB
          have fold_digs : ∀ (l : List (Nat × Nat)) (s' : DigState),
              buriedCount hgt wid s'.map < n →
              ∀ p ∈ l, (s'.map p.1 p.2 = 0 ∨ s'.map p.1 p.2 = 1) →
                (l.foldl (fun acc p => digAux f hgt wid n acc p.1 p.2) s').map p.1 p.2
                  = 1 := by
            intro l
            induction l with
            | nil => intro s' _ p hp; cases hp
            | cons q t iht =>
              intro s' hs' p hp hval
              simp only [List.foldl_cons]
              have hs'' : buriedCount hgt wid (digAux f hgt wid n s' q.1 q.2).map < n :=
                lt_of_le_of_lt
                  (buriedCount_le_of_mapMono (digAux_mono f hgt wid n s' q.1 q.2) hgt wid)
                  hs'
              rcases List.mem_cons.mp hp with rfl | hpt
              · have hdug : (digAux f hgt wid n s' p.1 p.2).map p.1 p.2 = 1 := by
                  rcases hval with hval | hval
                  · exact digAux_digs_target f hgt wid n s' p.1 p.2 (by omega) hval
                  · exact digAux_dug_stays f hgt wid n s' p.1 p.2 p.1 p.2 hval
                exact digList_dug_stays f hgt wid n t _ p.1 p.2 hdug
              · have hval' : (digAux f hgt wid n s' q.1 q.2).map p.1 p.2 = 0 ∨
                    (digAux f hgt wid n s' q.1 q.2).map p.1 p.2 = 1 := by
                  rcases digAux_mono f hgt wid n s' q.1 q.2 p.1 p.2 with hh | hh
                  · rw [hh]; exact hval
                  · exact Or.inr hh.2
                exact iht _ hs'' p hpt hval'
          intro x y hx hD hf p hp hxp
          by_cases hxy : x = r ∧ y = c
          · obtain ⟨rfl, rfl⟩ := hxy
            have hps1 : (setMap s.map x y 1) p.1 p.2 = 0 := by
              have hpc : ¬(p.1 = x ∧ p.2 = y) := by
                intro hcon
                have := surroundsN_center_not_mem hgt wid x y
                obtain ⟨a, b⟩ := p
                simp only at hcon
                obtain ⟨rfl, rfl⟩ := hcon
                exact this hp
              rw [setMap_other _ _ _ _ _ _ hpc]
              exact hxp
            exact fold_digs (surroundsN hgt wid x y) ⟨setMap s.map x y 1, s.lost⟩
              hblt p hp (Or.inl hps1)
          · have hs1x : setMap s.map r c 1 x y = 0 := by
              rw [setMap_other _ _ _ _ _ _ hxy]
              exact hx
            have hcl := fold_closed (surroundsN hgt wid r c)
              (fun q hq => surroundsN_bounds hq) ⟨setMap s.map r c 1, s.lost⟩ hblt
            by_cases hpc : p.1 = r ∧ p.2 = c
            · have hps1 : (setMap s.map r c 1) p.1 p.2 = 1 := by
                rw [setMap, if_pos hpc]
              exact digList_dug_stays f hgt wid n _ _ p.1 p.2 hps1
            · have hps0 : (setMap s.map r c 1) p.1 p.2 = 0 := by
                rw [setMap_other _ _ _ _ _ _ hpc]
                exact hxp
              exact hcl x y hs1x hD hf p hp hps0
        · rw [if_neg hz]
          intro x y hx hD hf p hp hxp
          replace hD : setMap s.map r c 1 x y = 1 := hD
          by_cases hxy : x = r ∧ y = c
          · obtain ⟨rfl, rfl⟩ := hxy
            exact absurd hf hz
          · rw [setMap_other _ _ _ _ _ _ hxy] at hD
            rw [hx] at hD
            cases hD
    · rw [if_neg h0]
      intro x y hx hD hf p hp hxp
      rw [hx] at hD
      cases hD

/-- Completeness: every cell reachable through buried zero cells from the
dug coordinate ends up dug. -/
theorem digAux_complete (f : Field) (hgt wid fuel : Nat) (s : DigState) (r c : Nat)
    (hr : r < hgt) (hc : c < wid) (hfuel : buriedCount hgt wid s.map < fuel)
    (h0 : s.map r c = 0) :
    ∀ x y, ReachB f s.map hgt wid r c x y →
      (digAux f hgt wid fuel s r c).map x y = 1 := by
  intro x y hreach
  induction hreach with
  | base => exact digAux_digs_target f hgt wid fuel s r c (by omega) h0
  | step hre hm0 hf0 hsur hm0' ih' =>
    exact digAux_closed f hgt wid fuel s r c hr hc hfuel _ _ hm0 ih' hf0 _ hsur hm0'

/-- On a board where no zero-count cell borders a mine, digging a non-mine
cell never sets the lost flag. -/
theorem digAux_lost_eq (f : Field) (hgt wid : Nat)
    (hcons : ∀ a b, a < hgt → b < wid → f a b = 0 →
      ∀ p ∈ surroundsN hgt wid a b, f p.1 p.2 ≠ -1) :
    ∀ (fuel : Nat) (s : DigState) (r c : Nat), r < hgt → c < wid →
      (f r c = -1 → s.map r c ≠ 0) →
      (digAux f hgt wid fuel s r c).lost = s.lost := by
  intro fuel
  induction fuel with
  | zero => intro s r c _ _ _; rfl
  | succ n ih =>
    intro s r c hr hc hsafe
    rw [digAux_succ]
    by_cases h0 : s.map r c = 0
    · rw [if_pos h0]
      by_cases hm : f r c = -1
      · exact absurd h0 (hsafe hm)
      · rw [if_neg hm]
        by_cases hz : f r c = 0
        · rw [if_pos hz]
          exact digList_preserve f hgt wid n (fun x => x.lost = s.lost)
            (surroundsN hgt wid r c)
            (fun x p hp hx => by
              have hpb := surroundsN_bounds hp
              have hpsafe : f p.1 p.2 ≠ -1 := hcons r c hr hc hz p hp
              show (digAux f hgt wid n x p.1 p.2).lost = s.lost
              rw [ih x p.1 p.2 hpb.1 hpb.2 (fun hcon => absurd hcon hpsafe)]
              exact hx)
            ⟨setMap s.map r c 1, s.lost⟩ rfl
        · rw [if_neg hz]
    · rw [if_neg h0]

/-- C2 (amended): digging an in-bounds buried zero-count cell (on a board
where no zero-count cell borders a mine, as construction guarantees) sets to
dug exactly the cells reachable from it through buried zero-count cells —
on an all-buried board that is the maximal contiguous zero region containing
it plus its bordering numbered cells; flagged and already-dug cells are
skipped and block propagation — no mine cell is ever touched by the
propagation and the lost flag is unchanged. -/
theorem dig_zero_flood (st : Minefield) (r c : Nat)
    (hr : r < st.height) (hc : c < st.width)
    (hb : st.field_map r c = 0) (hz : st.field r c = 0)
    (hcons : ∀ a ∈ List.range st.height, ∀ b ∈ List.range st.width,
      st.field a b = 0 → ∀ p ∈ surroundsN st.height st.width a b,
        st.field p.1 p.2 ≠ -1) :
    ∃ st', Minefield.dig st (r : Int) (c : Int) = Except.ok st' ∧
      (∀ x y : Nat, st'.field_map x y = 1 ↔
        (st.field_map x y = 1 ∨
          ReachB st.field st.field_map st.height st.width r c x y)) ∧
      st'.game_lost = st.game_lost ∧
      (∀ x y : Nat, st.field x y = -1 → st'.field_map x y = st.field_map x y) ∧
      st'.field = st.field ∧ st'.height = st.height ∧ st'.width = st.width := by
  have hcons' : ∀ a b, a < st.height → b < st.width → st.field a b = 0 →
      ∀ p ∈ surroundsN st.height st.width a b, st.field p.1 p.2 ≠ -1 :=
    fun a b ha hb' => hcons a (List.mem_range.mpr ha) b (List.mem_range.mpr hb')
  have hfuel : buriedCount st.height st.width st.field_map <
      st.height * st.width + 1 :=
    Nat.lt_succ_of_le (buriedCount_le_total st.height st.width st.field_map)
  refine ⟨_, dig_coe st r c hr hc, ?_, ?_, ?_, rfl, rfl, rfl⟩
  · intro x y
    constructor
    · intro h
      exact digAux_sound st.field st.height st.width (st.height * st.width + 1)
        ⟨st.field_map, st.game_lost⟩ r c x y h
    · intro h
      rcases h with h | h
      · exact digAux_dug_stays st.field st.height st.width (st.height * st.width + 1)
          ⟨st.field_map, st.game_lost⟩ r c x y h
      · exact digAux_complete st.field st.height st.width (st.height * st.width + 1)
          ⟨st.field_map, st.game_lost⟩ r c hr hc hfuel hb x y h
  · show (digAux st.field st.height st.width (st.height * st.width + 1)
        ⟨st.field_map, st.game_lost⟩ r c).lost = st.game_lost
    exact digAux_lost_eq st.field st.height st.width hcons'
      (st.height * st.width + 1) ⟨st.field_map, st.game_lost⟩ r c hr hc
      (fun hcon => by rw [hz] at hcon; cases hcon)
  · intro x y hmine
    show (digAux st.field st.height st.width (st.height * st.width + 1)
        ⟨st.field_map, st.game_lost⟩ r c).map x y = st.field_map x y
    rcases digAux_mono st.field st.height st.width (st.height * st.width + 1)
      ⟨st.field_map, st.game_lost⟩ r c x y with hh | hh
    · exact hh
    · exfalso
      rcases digAux_sound st.field st.height st.width (st.height * st.width + 1)
        ⟨st.field_map, st.game_lost⟩ r c x y hh.2 with h1 | h1
      · have hh1 : st.field_map x y = 0 := hh.1
        rw [show (⟨st.field_map, st.game_lost⟩ : DigState).map x y = st.field_map x y
          from rfl, hh1] at h1
        cases h1
      · rcases reachB_elim h1 with ⟨rfl, rfl⟩ | ⟨r₁, c₁, hre, hm01, hf1, hsur⟩
        · rw [hz] at hmine
          cases hmine
        · have hbnd := reachB_inbounds hr hc hre
          exact hcons' r₁ c₁ hbnd.1 hbnd.2 hf1 (x, y) hsur hmine

/-- C2 fails as stated: on the 1×4 board with zero cells `(0,0)`, `(0,1)`,
the numbered cell `(0,2)` and a flag on `(0,1)`, digging the zero cell
`(0,0)` leaves the zero-region cell `(0,1)` flagged (not dug) and the
bordering numbered cell `(0,2)` buried (not dug): the flag blocks the
flood fill, so not all of the region plus border is set to dug. -/
theorem dig_flood_blocked_counterexample :
    flaggedSample.field 0 0 = 0 ∧ flaggedSample.field 0 1 = 0 ∧
    flaggedSample.field 0 2 = 1 ∧ flaggedSample.field_map 0 0 = 0 ∧
    (Minefield.dig flaggedSample 0 0).map
      (fun s => (s.field_map 0 0, s.field_map 0 1, s.field_map 0 2)) =
      Except.ok (1, 2, 0) :=
  ⟨rfl, rfl, rfl, rfl, rfl⟩

theorem dig_zero_flood_witness :
    sampleBoard.field_map 0 0 = 0 ∧ sampleBoard.field 0 0 = 0 ∧
    (∃ st', Minefield.dig sampleBoard 0 0 = Except.ok st' ∧
      st'.game_lost = sampleBoard.game_lost ∧
      st'.field_map 0 3 = sampleBoard.field_map 0 3) := by
  refine ⟨rfl, rfl, ?_⟩
  obtain ⟨st', h1, -, h3, h4, -⟩ :=
    dig_zero_flood sampleBoard 0 0 (by decide) (by decide) rfl rfl (by decide)
  exact ⟨st', h1, h3, h4 0 3 rfl⟩

end Mines
